import Mathlib

/-!
Verification development for the lockfile-generator repository.

The program reconstructs a package-lock-style dependency tree from an
installed `node_modules` layout.  We shallowly embed the three source files:

* `lib/Builder.ts`    — `getRequires`, `getModulesDir`, `getDependencyTarget`,
  `buildLockfileEntry`, `generateLockfile`, `markDevDeps`, `markOptionalDeps`;
* `lib/Walkers.ts`    — `walkEntries`, `resolveDependencyEntry`, `walkDeps`,
  `walkNonSubsetDeps`;
* `lib/Interfaces.ts` — `Entry`, `EntryDeps`, `BuildContext`.

Mutable JavaScript object graphs are embedded as an arena (`Tree`): every
`Entry` object is a slot in a list, object references are list indices
(`EntryId`), and mutation is explicit state passing.  JavaScript objects used
as string-keyed maps become association lists that keep JavaScript's
insertion-order semantics (`aset` updates in place, appends when fresh;
spread `\x7b...a, ...b\x7d` keeps `a`'s key order and lets `b`'s values win).
Unbounded `while` loops and recursion over the mutable graph take an explicit
fuel argument; thrown exceptions become `Except.error` with the thrown
message, and running out of fuel is a distinct error string, so divergence is
never confused with the program's own fatal errors.

The `Interfaces.ts` snapshot in the repository does not declare the `owner`
field and the `ctx.root` entry that `Walkers.ts` dereferences; the spec
documents both (`owner` is "a required but undocumented field" set at
insertion, `ctx.root` is the synthetic tree root).  The definitions that fill
this gap are marked `Modelled from the spec:` below.
-/

namespace Lockfile

/-! ### Association lists with JavaScript object semantics -/

/-- Lookup of a key in a string-keyed JavaScript object (first binding wins;
objects built by the program never hold duplicate keys). -/
def alook {κ α : Type} [DecidableEq κ] (k : κ) : List (κ × α) → Option α
  | [] => none
  | p :: ps => if p.1 = k then some p.2 else alook k ps

/-- JavaScript `k in obj`. -/
def hasKey {κ α : Type} [DecidableEq κ] (k : κ) (l : List (κ × α)) : Bool :=
  (alook k l).isSome

/-- JavaScript `obj[k] = v`: updates the binding in place when the key is
present (keeping its position), otherwise appends it. -/
def aset {κ α : Type} [DecidableEq κ] (k : κ) (v : α) (l : List (κ × α)) :
    List (κ × α) :=
  if hasKey k l then l.map (fun p => if p.1 = k then (k, v) else p)
  else l ++ [(k, v)]

/-- JavaScript `delete obj[k]`. -/
def adel {κ α : Type} [DecidableEq κ] (k : κ) (l : List (κ × α)) :
    List (κ × α) :=
  l.filter (fun p => decide (p.1 ≠ k))

/-- JavaScript `Object.keys`. -/
def keysOf {κ α : Type} (l : List (κ × α)) : List κ := l.map Prod.fst

/-- JavaScript object spread `\x7b ...a, ...b \x7d`: keys of `a` in order
(values overridden by `b` on collision) followed by the fresh keys of `b`. -/
def spreadO {κ α : Type} [DecidableEq κ] (a b : List (κ × α)) :
    List (κ × α) :=
  a.map (fun p => (p.1, (alook p.1 b).getD p.2)) ++
    b.filter (fun p => (alook p.1 a).isNone)

/-! ### Data model (`Interfaces.ts`) -/

/-- Object identity of an `Entry`: its slot in the arena. -/
abbrev EntryId := Nat

/-- The `requires` field: dependency name to declared range string. -/
abbrev Requires := List (String × String)

/-- `EntryDeps`: map from package name to `Entry` reference. -/
abbrev Deps := List (String × EntryId)

/-- `Entry` from `Interfaces.ts`.  The `owner` back-reference is the field
`Walkers.ts` dereferences; the spec documents it as required but undocumented
(set at insertion, `none` for the synthetic root and for never-inserted
entries). -/
structure Entry where
  version : String := ""
  integrity : Option String := none
  resolved : Option String := none
  requires : Option Requires := none
  dependencies : Option Deps := none
  dev : Bool := false
  optional : Bool := false
  owner : Option EntryId := none
deriving DecidableEq

/-- The arena of all `Entry` objects allocated in one run. -/
structure Tree where
  entries : List Entry
deriving DecidableEq

/-- Dereference an entry id (out-of-range ids give the default entry, which
has no fields set; the program never produces them). -/
def Tree.get (t : Tree) (i : EntryId) : Entry := t.entries.getD i {}

def Tree.size (t : Tree) : Nat := t.entries.length

def Tree.setE (t : Tree) (i : EntryId) (e : Entry) : Tree := ⟨t.entries.set i e⟩

def Tree.modifyE (t : Tree) (i : EntryId) (f : Entry → Entry) : Tree :=
  t.setE i (f (t.get i))

/-- The children actually reachable through an entry's nested `dependencies`
map (`none` and an empty map both have no children). -/
def kids (t : Tree) (i : EntryId) : Deps := ((t.get i).dependencies).getD []

/-! ### Walkers (`Walkers.ts`) -/

/-- `resolveDependencyEntryIfExists`: look a name up in one entry's own
nested `dependencies` map. -/
def resolveDependencyEntryIfExists (t : Tree) (parent : EntryId)
    (name : String) : Option EntryId :=
  match (t.get parent).dependencies with
  | none => none
  | some deps => alook name deps

/-- The message thrown by `resolveDependencyEntry` when the owner chain is
exhausted without a match. -/
def resolveErrMsg (parentName depName : String) : String :=
  "Internal error: failed to resolve entry for " ++ parentName ++ " -> "
    ++ depName

/-- Fuel-exhaustion marker for the owner-chain walk (the source loop would
not terminate only on a cyclic owner chain, which the builder never makes). -/
def resolveFuelMsg : String := "resolve owner chain out of fuel"

/-- The `while (curOwner != null)` loop of `resolveDependencyEntry`. -/
def resolveGo (t : Tree) (depName err : String) :
    Nat → Option EntryId → Except String EntryId
  | _, none => Except.error err
  | 0, some _ => Except.error resolveFuelMsg
  | fuel + 1, some cur =>
      match resolveDependencyEntryIfExists t cur depName with
      | some e => Except.ok e
      | none => resolveGo t depName err fuel (t.get cur).owner

/-- `resolveDependencyEntry`: walk the owner chain from the requiring entry
and return the nearest enclosing container's binding, or throw the fatal
internal-consistency error. -/
def resolveDependencyEntry (t : Tree) (fuel : Nat) (parent : EntryId)
    (parentName depName : String) : Except String EntryId :=
  resolveGo t depName (resolveErrMsg parentName depName) fuel (some parent)

/-- Fuel-exhaustion marker for `walkDeps` (the source recursion terminates
because the walked set only grows; fuel makes that a theorem, not an
assumption). -/
def walkFuelMsg : String := "walkDeps out of fuel"

/-- JavaScript `Set.add` on an entry set kept as an insertion-ordered list. -/
def insertId (i : EntryId) (l : List EntryId) : List EntryId :=
  if i ∈ l then l else l ++ [i]

/-- The `for (packageName of Object.keys(entry.requires))` loop body of
`walkDeps`; `go` is the recursive `walkDeps` call on each resolved entry. -/
def walkDepsList (t : Tree) (rfuel : Nat)
    (go : String → EntryId → List EntryId → List EntryId →
      Except String (List EntryId × List EntryId)) :
    String → EntryId → List (String × String) → List EntryId →
    List EntryId → Except String (List EntryId × List EntryId)
  | _, _, [], walked, acc => Except.ok (walked, acc)
  | entryName, entry, (pkg, _) :: rest, walked, acc =>
      match resolveDependencyEntry t rfuel entry entryName pkg with
      | Except.error e => Except.error e
      | Except.ok r =>
          match go pkg r walked (insertId r acc) with
          | Except.error e => Except.error e
          | Except.ok (walked2, acc2) =>
              walkDepsList t rfuel go entryName entry rest walked2 acc2

/-- `walkDeps`: expand an entry's `requires` edges through
`resolveDependencyEntry`, guarded by the `walked` set; every resolved entry
is handed to the walker (here: added to the accumulator set `acc`, the only
walker the source ever passes). -/
def walkDepsGo (t : Tree) (rfuel : Nat) :
    Nat → String → EntryId → List EntryId → List EntryId →
    Except String (List EntryId × List EntryId)
  | 0, _, _, _, _ => Except.error walkFuelMsg
  | fuel + 1, entryName, entry, walked, acc =>
      if entry ∈ walked then Except.ok (walked, acc)
      else
        match (t.get entry).requires with
        | none => Except.ok (walked ++ [entry], acc)
        | some reqs =>
            walkDepsList t rfuel (walkDepsGo t rfuel fuel) entryName entry
              reqs (walked ++ [entry]) acc

/-- The `for (packageName of subset)` loop of `walkNonSubsetDeps`: build the
`subsetDeps` set.  Each top-level package gets a fresh `walked` set, while
`subsetDeps` accumulates across all of them. -/
def collectSubsetDeps (t : Tree) (rfuel wfuel : Nat) (rootDeps : Deps) :
    List String → List EntryId → Except String (List EntryId)
  | [], acc => Except.ok acc
  | pkg :: rest, acc =>
      match alook pkg rootDeps with
      | none => collectSubsetDeps t rfuel wfuel rootDeps rest acc
      | some entry =>
          match walkDepsGo t rfuel wfuel pkg entry [] (insertId entry acc) with
          | Except.error e => Except.error e
          | Except.ok (_, acc2) =>
              collectSubsetDeps t rfuel wfuel rootDeps rest acc2

/-- Fuel-exhaustion marker for `walkEntries` (the source recursion terminates
on the acyclic nesting the builder produces). -/
def walkEntriesFuelMsg : String := "walkEntries out of fuel"

/-- The `for (value of Object.values(deps))` loop of `walkEntries`; `go` is
the recursive `walkEntries` call on each value's nested map. -/
def walkEntriesGList {σ : Type} (getT : σ → Tree) (visit : σ → EntryId → σ)
    (go : σ → Option Deps → Option σ) : σ → Deps → Option σ
  | s, [] => some s
  | s, (_, i) :: rest =>
      match go s ((Tree.get (getT s) i).dependencies) with
      | none => none
      | some s2 => walkEntriesGList getT visit go (visit s2 i) rest

/-- `walkEntries`, generic in the visitor: the visitor owns a state `s`
(which may contain the mutable tree itself, recovered by `getT`), children
are traversed before the visitor runs on the entry (post-order), and the
nested `dependencies` map of each value is read from the current state. -/
def walkEntriesG {σ : Type} (getT : σ → Tree) (visit : σ → EntryId → σ) :
    Nat → σ → Option Deps → Option σ
  | _, s, none => some s
  | 0, _, some _ => none
  | fuel + 1, s, some deps =>
      walkEntriesGList getT visit (walkEntriesG getT visit fuel) s deps

/-- `walkEntries` with a tree-mutating walker (the shape used by the cleanup
pass and by `walkNonSubsetDeps`'s marking phase). -/
def walkEntriesT (visit : Tree → EntryId → Tree) (fuel : Nat) (t : Tree)
    (deps : Option Deps) : Option Tree :=
  walkEntriesG (fun s => s) visit fuel t deps

/-- The post-order visit list of `walkEntries` over a fixed tree (the
instance of `walkEntriesG` whose visitor only records the entry it was
handed). -/
def walkEntriesVisits (t : Tree) (fuel : Nat) (deps : Option Deps) :
    Option (List EntryId) :=
  walkEntriesG (fun _ => t) (fun l i => l ++ [i]) fuel [] deps

/-- `walkNonSubsetDeps`: collect everything required (transitively) by the
`subset` names out of the root's `dependencies`, then walk the whole nested
tree and apply `mark` to every entry not in that set. -/
def walkNonSubsetDeps (t : Tree) (rfuel wfuel efuel : Nat) (root : EntryId)
    (subset : List String) (mark : Entry → Entry) : Except String Tree :=
  match (t.get root).dependencies with
  | none => Except.ok t
  | some rootDeps =>
      match collectSubsetDeps t rfuel wfuel rootDeps subset [] with
      | Except.error e => Except.error e
      | Except.ok subsetDeps =>
          match walkEntriesT
              (fun t2 i =>
                if i ∈ subsetDeps then t2 else t2.modifyE i mark)
              efuel t (some rootDeps) with
          | none => Except.error walkEntriesFuelMsg
          | some t2 => Except.ok t2

/-! ### Builder (`lib/Builder.ts`) -/

/-- An absolute filesystem directory, as its path segments (so
`path.dirname` is `dropLast`, `path.basename` is the last segment, and the
filesystem root is `[]`). -/
abbrev Dir := List String

/-- The fields of a parsed `package.json` that the builder reads (a missing
dependency block and an empty one are both spread as nothing). -/
structure Manifest where
  name : String := ""
  version : String := ""
  integrity : Option String := none
  resolvedUrl : Option String := none
  dependencies : Requires := []
  optionalDependencies : Requires := []
  devDependencies : Requires := []
  peerDependencies : Requires := []
deriving DecidableEq

/-- The external collaborators (Manifest Reader and Module Locator):
`readManifest` is `manifestReader.read`, `manifestExists` distinguishes
`readIfExists`, and `locate` is `resolvePackageLocation` with `none` as the
`MODULE_NOT_FOUND` outcome. -/
structure Env where
  readManifest : Dir → Manifest
  manifestExists : Dir → Bool
  locate : Dir → String → Option Dir

/-- `isInstalled`: probe the Module Locator, treating `MODULE_NOT_FOUND` as
`false`. -/
def isInstalled (env : Env) (dir : Dir) (packageName : String) : Bool :=
  (env.locate dir packageName).isSome

/-- `getRequires`: spread `dependencies`, then `optionalDependencies`, then
(only with `includeDev`) `devDependencies`, then delete every key whose
installed location cannot be found — iterating, as the source does, over a
snapshot of the merged object's keys and deleting from the object. -/
def getRequires (env : Env) (dir : Dir) (includeDev : Bool) : Requires :=
  let manifest := env.readManifest dir
  let reqs := spreadO (spreadO manifest.dependencies
      manifest.optionalDependencies)
    (if includeDev then manifest.devDependencies else [])
  (keysOf reqs).foldl
    (fun acc packageName =>
      if isInstalled env dir packageName then acc else adel packageName acc)
    reqs

/-- `getModulesDir`: walk up from a location to the closest parent directory
named `node_modules`, `none` when the filesystem root is reached first. -/
def getModulesDirGo : Nat → Dir → Option Dir
  | _, [] => none
  | 0, _ :: _ => none
  | fuel + 1, s :: rest =>
      if (s :: rest).getLast? = some "node_modules" then some (s :: rest)
      else getModulesDirGo fuel (s :: rest).dropLast

/-- `getModulesDir`: walk up from a location to the closest parent directory
named `node_modules`, `none` when the filesystem root is reached first (the
fuel `l.length` is exact: each step drops one segment). -/
def getModulesDir (l : Dir) : Option Dir := getModulesDirGo l.length l

/-- The target map an entry can be inserted into: the run's top-level
`rootDeps` or the nested `dependencies` map of an already-built entry. -/
inductive Target
  | rootT
  | entryT (i : EntryId)
deriving DecidableEq

/-- `BuildContext` plus the arena: `entries` is the allocation arena (object
identity = index), and the remaining fields are the context maps.
`ownerSets` and `inserts` are ghost logs recording every `owner` assignment
and every insertion of a new entry into a container, in order. -/
structure BuildState where
  entries : List Entry := []
  rootDeps : Deps := []
  visited : List Dir := []
  moduleDirs : List (Dir × EntryId) := []
  resolves : List (EntryId × List (String × EntryId)) := []
  ownerSets : List (EntryId × EntryId) := []
  inserts : List (EntryId × Target) := []
deriving DecidableEq

def entryAt (st : BuildState) (i : EntryId) : Entry := st.entries.getD i {}

def setEntry (st : BuildState) (i : EntryId) (e : Entry) : BuildState :=
  { st with entries := st.entries.set i e }

/-- JavaScript `Set.add` for visited directories. -/
def addDir (d : Dir) (l : List Dir) : List Dir :=
  if d ∈ l then l else l ++ [d]

/-- `getDependencyTarget`: from the `node_modules` directory containing the
package, take the parent directory; if an entry is registered for it, the
target is that entry's nested `dependencies` map (created empty on the spot
when absent), otherwise the run's `rootDeps`. -/
def getDependencyTarget (st : BuildState) (modulesDir : Dir) :
    Target × BuildState :=
  let parent := modulesDir.dropLast
  match alook parent st.moduleDirs with
  | none => (Target.rootT, st)
  | some tid =>
      match (entryAt st tid).dependencies with
      | none =>
          (Target.entryT tid,
            setEntry st tid { entryAt st tid with dependencies := some [] })
      | some _ => (Target.entryT tid, st)

/-- The deps object a `Target` refers to (the reference `buildLockfileEntry`
holds as `depsObject`). -/
def readTarget (st : BuildState) : Target → Deps
  | Target.rootT => st.rootDeps
  | Target.entryT i => ((entryAt st i).dependencies).getD []

/-- Modelled from the spec: the container an entry inserted into a target map
belongs to — the owning `Entry`, or the synthetic tree root for `rootDeps`.
The snapshot of `Builder.ts` in the repository predates the `owner` field
that `Walkers.ts` dereferences; the spec pins it down ("set its `owner`
back-reference to the Entry/owning container whose map it was inserted
into").  The synthetic root is identified with the run's root entry, which is
always the first allocation (id 0). -/
def ownerOfTarget : Target → EntryId
  | Target.rootT => 0
  | Target.entryT i => i

/-- Insert a freshly built entry into its target map under `name`, and —
Modelled from the spec: the `owner` assignment missing from the provided
`Builder.ts` snapshot — set the new entry's `owner` to the container it was
inserted into, logging both the insertion and the owner write. -/
def insertWithOwner (st : BuildState) (target : Target) (name : String)
    (depId : EntryId) : BuildState :=
  let st := match target with
    | Target.rootT => { st with rootDeps := aset name depId st.rootDeps }
    | Target.entryT i =>
        setEntry st i { entryAt st i with
          dependencies :=
            some (aset name depId (((entryAt st i).dependencies).getD [])) }
  let st := setEntry st depId
    { entryAt st depId with owner := some (ownerOfTarget target) }
  { st with
    inserts := st.inserts ++ [(depId, target)],
    ownerSets := st.ownerSets ++ [(depId, ownerOfTarget target)] }

/-- Record a logical edge `name -> entry` in the requiring entry's
`resolves` map (JavaScript `entryResolves.set`). -/
def addResolve (st : BuildState) (fromId : EntryId) (name : String)
    (toId : EntryId) : BuildState :=
  { st with
    resolves := st.resolves.map
      (fun p => if p.1 = fromId then (p.1, aset name toId p.2) else p) }

/-- Fuel-exhaustion marker for the builder recursion. -/
def buildFuelMsg : String := "buildLockfileEntry out of fuel"

/-- The `MODULE_NOT_FOUND` error `require.resolve` throws when a name kept in
`requires` cannot be located after all (never happens with a deterministic
locator, since `getRequires` already filtered on the same locator). -/
def notFoundMsg (depName : String) : String :=
  "MODULE_NOT_FOUND: " ++ depName

/-- The hoist-target choice of `buildLockfileEntry`'s loop body: when the
resolved directory has no enclosing `node_modules` the target is the run's
`rootDeps`, otherwise `getDependencyTarget` picks (and possibly
initializes) the registered parent's nested map. -/
def chooseTarget (st : BuildState) (resolvedDir : Dir) : Target × BuildState :=
  match getModulesDir resolvedDir with
  | none => (Target.rootT, st)
  | some modulesDir => getDependencyTarget st modulesDir

/-- The `for (depName of Object.keys(requires))` loop of
`buildLockfileEntry`: locate the dependency, skip it when its directory is
already visited (recording no edge — the source's known gap), otherwise pick
the hoist-target map; when the name is already bound there, record the edge
to the existing binding, else recurse (`build`, never with dev
requirements), insert the new entry, set its owner, and record the edge. -/
def buildDeps (env : Env)
    (build : Dir → Bool → BuildState → Except String (EntryId × BuildState)) :
    Dir → EntryId → List String → BuildState → Except String BuildState
  | _, _, [], st => Except.ok st
  | dir, id, depName :: rest, st =>
      match env.locate dir depName with
      | none => Except.error (notFoundMsg depName)
      | some resolvedDir =>
          if resolvedDir ∈ st.visited then buildDeps env build dir id rest st
          else
            let ts := chooseTarget st resolvedDir
            match alook depName (readTarget ts.2 ts.1) with
            | some existing =>
                buildDeps env build dir id rest
                  (addResolve ts.2 id depName existing)
            | none =>
                match build resolvedDir false ts.2 with
                | Except.error e => Except.error e
                | Except.ok (depId, st2) =>
                    let st3 := insertWithOwner st2 ts.1 depName depId
                    buildDeps env build dir id rest
                      (addResolve st3 id depName depId)

/-- `buildLockfileEntry`: read the manifest, compute `requires`, allocate the
entry, mark the directory visited and registered, then process every name in
`requires` (a snapshot of the keys, as `Object.keys` takes one). -/
def buildLockfileEntry (env : Env) :
    Nat → Dir → Bool → BuildState → Except String (EntryId × BuildState)
  | 0, _, _, _ => Except.error buildFuelMsg
  | fuel + 1, dir, includeDev, st =>
      let manifest := env.readManifest dir
      let reqs := getRequires env dir includeDev
      let id := st.entries.length
      let entry : Entry :=
        { version := manifest.version
          integrity := manifest.integrity
          resolved := manifest.resolvedUrl
          requires := some reqs
          dependencies := some [] }
      let st :=
        { st with
          entries := st.entries ++ [entry]
          visited := addDir dir st.visited
          moduleDirs := aset dir id st.moduleDirs
          resolves := st.resolves ++ [(id, [])] }
      match buildDeps env (buildLockfileEntry env fuel) dir id
          (keysOf reqs) st with
      | Except.error e => Except.error e
      | Except.ok st2 => Except.ok (id, st2)

/-! ### Lockfile assembly (`generateLockfile`) -/

/-- The merge `ctx.rootDeps = \x7b ...entry.dependencies, ...ctx.rootDeps \x7d`
performed after the root entry is built. -/
def mergedRootDeps (st : BuildState) (rootId : EntryId) : Deps :=
  spreadO (((entryAt st rootId).dependencies).getD []) st.rootDeps

/-- The cleanup walker of `generateLockfile`: drop a present-but-empty nested
`dependencies` map, then a present-but-empty `requires` map. -/
def cleanEntry (e : Entry) : Entry :=
  let e := match e.dependencies with
    | some [] => { e with dependencies := none }
    | _ => e
  match e.requires with
  | some [] => { e with requires := none }
  | _ => e

/-- The post-order cleanup pass over the merged root map. -/
def cleanupPass (efuel : Nat) (t : Tree) (rootDeps : Deps) : Option Tree :=
  walkEntriesT (fun t2 i => t2.modifyE i cleanEntry) efuel t (some rootDeps)

/-- The non-dev requirement names of the root manifest (`markDevDeps`). -/
def nonDevNames (m : Manifest) : List String :=
  keysOf (spreadO (spreadO m.dependencies m.optionalDependencies)
    m.peerDependencies)

/-- The non-optional requirement names of the root manifest
(`markOptionalDeps`). -/
def nonOptionalNames (m : Manifest) : List String :=
  keysOf (spreadO (spreadO m.dependencies m.devDependencies)
    m.peerDependencies)

/-- `markDevDeps`: flag `dev = true` on every entry of the tree not required
by the root's dependencies + optionalDependencies + peerDependencies. -/
def markDevDeps (env : Env) (startDir : Dir) (t : Tree)
    (rfuel wfuel efuel : Nat) (root : EntryId) : Except String Tree :=
  walkNonSubsetDeps t rfuel wfuel efuel root
    (nonDevNames (env.readManifest startDir))
    (fun e => { e with dev := true })

/-- `markOptionalDeps`: flag `optional = true` on every entry of the tree not
required by the root's dependencies + devDependencies + peerDependencies. -/
def markOptionalDeps (env : Env) (startDir : Dir) (t : Tree)
    (rfuel wfuel efuel : Nat) (root : EntryId) : Except String Tree :=
  walkNonSubsetDeps t rfuel wfuel efuel root
    (nonOptionalNames (env.readManifest startDir))
    (fun e => { e with optional := true })

/-- The assembled lockfile document. -/
structure LockfileDoc where
  name : String
  version : String
  lockfileVersion : Nat
  requiresFlag : Bool
  dependencies : Deps
  tree : Tree
deriving DecidableEq

/-- `generateLockfile`: skip when no manifest exists; otherwise build the
root entry with dev requirements, merge its nested `dependencies` into
`rootDeps`, wire the synthetic root (Modelled from the spec: `ctx.root` is
the `Entry` whose `dependencies` map is the merged top level, missing from
the provided `Interfaces.ts` snapshot — identified with the root entry,
id 0), strip empty maps post-order, then run the two marking passes. -/
def generateLockfile (env : Env) (bfuel rfuel wfuel efuel : Nat) (dir : Dir) :
    Except String (Option LockfileDoc) :=
  if env.manifestExists dir = false then Except.ok none
  else
    match buildLockfileEntry env bfuel dir true {} with
    | Except.error e => Except.error e
    | Except.ok (rootId, st) =>
        let merged := mergedRootDeps st rootId
        let t : Tree := ⟨st.entries⟩
        let t := t.setE rootId { t.get rootId with dependencies := some merged }
        match cleanupPass efuel t merged with
        | none => Except.error walkEntriesFuelMsg
        | some t1 =>
            match markDevDeps env dir t1 rfuel wfuel efuel rootId with
            | Except.error e => Except.error e
            | Except.ok t2 =>
                match markOptionalDeps env dir t2 rfuel wfuel efuel rootId with
                | Except.error e => Except.error e
                | Except.ok t3 =>
                    let m := env.readManifest dir
                    Except.ok (some
                      { name := m.name
                        version := m.version
                        lockfileVersion := 1
                        requiresFlag := true
                        dependencies := merged
                        tree := t3 })

/-! ## Lemmas about the association-list primitives -/

theorem alook_append {κ α : Type} [DecidableEq κ] (k : κ)
    (a b : List (κ × α)) :
    alook k (a ++ b) = (alook k a).or (alook k b) := by
  induction a with
  | nil => simp [alook]
  | cons p ps ih =>
      by_cases h : p.1 = k <;> simp [alook, h, ih]

theorem alook_spread_map {κ α : Type} [DecidableEq κ] (k : κ)
    (a b : List (κ × α)) :
    alook k (a.map (fun p => (p.1, (alook p.1 b).getD p.2)))
      = (alook k a).map (fun v => (alook k b).getD v) := by
  induction a with
  | nil => simp [alook]
  | cons p ps ih =>
      by_cases h : p.1 = k
      · subst h; simp [alook]
      · simp [alook, h, ih]

theorem alook_filter_key {κ α : Type} [DecidableEq κ] (k : κ)
    (q : κ → Bool) (l : List (κ × α)) :
    alook k (l.filter (fun p => q p.1))
      = if q k then alook k l else none := by
  induction l with
  | nil => simp [alook]
  | cons p ps ih =>
      by_cases h : p.1 = k
      · subst h
        by_cases hq : q p.1 <;> simp [alook, hq, ih]
      · by_cases hq : q p.1 <;> simp [alook, h, hq, ih]

theorem alook_spreadO {κ α : Type} [DecidableEq κ] (k : κ)
    (a b : List (κ × α)) :
    alook k (spreadO a b) = (alook k b).or (alook k a) := by
  rw [spreadO, alook_append, alook_spread_map,
    alook_filter_key k (fun x => (alook x a).isNone) b]
  cases ha : alook k a with
  | none => simp [ha, Option.or_none]
  | some v =>
      cases hb : alook k b with
      | none => simp [ha, hb, Option.or]
      | some w => simp [ha, hb, Option.or]

theorem alook_eq_some_mem {κ α : Type} [DecidableEq κ] {k : κ} {v : α}
    {l : List (κ × α)} (h : alook k l = some v) : (k, v) ∈ l := by
  induction l with
  | nil => simp [alook] at h
  | cons p ps ih =>
      by_cases hp : p.1 = k
      · rw [alook, if_pos hp] at h
        injection h with hv
        obtain ⟨pk, pv⟩ := p
        simp only at hp hv
        subst hp
        subst hv
        exact List.mem_cons_self _ _
      · rw [alook, if_neg hp] at h
        exact List.mem_cons_of_mem _ (ih h)

theorem alook_eq_none_iff {κ α : Type} [DecidableEq κ] {k : κ}
    {l : List (κ × α)} : alook k l = none ↔ k ∉ keysOf l := by
  induction l with
  | nil => simp [alook, keysOf]
  | cons p ps ih =>
      rw [alook]
      by_cases hp : p.1 = k
      · subst hp
        simp [keysOf]
      · rw [if_neg hp, ih]
        simp only [keysOf, List.map_cons, List.mem_cons, not_or]
        constructor
        · intro h
          exact ⟨fun he => hp he.symm, h⟩
        · intro h
          exact h.2

theorem alook_isSome_iff {κ α : Type} [DecidableEq κ] {k : κ}
    {l : List (κ × α)} : (alook k l).isSome = true ↔ k ∈ keysOf l := by
  constructor
  · intro h
    cases hl : alook k l with
    | none => rw [hl] at h; cases h
    | some v => exact List.mem_map_of_mem Prod.fst (alook_eq_some_mem hl)
  · intro h
    cases hl : alook k l with
    | none => exact absurd h (alook_eq_none_iff.mp hl)
    | some v => rfl

/-! ## Claim C4 — `getRequires` -/

/-- Modelled from the spec (§4.1 step 1): "Compute `requires` as the ordered
union of declared dependency ranges, then optional-dependency ranges
(overwriting on name collision), then — only if `includeDevRequirements` —
development ranges (overwriting again); filter out any name whose installed
location cannot be found."  Written as a filter, independently of the
source's key-snapshot delete loop, for the refinement comparison. -/
def requiresSpec (env : Env) (dir : Dir) (includeDev : Bool) : Requires :=
  let m := env.readManifest dir
  (spreadO (spreadO m.dependencies m.optionalDependencies)
      (if includeDev then m.devDependencies else [])).filter
    (fun p => isInstalled env dir p.1)

theorem foldl_adel_eq_filter {κ α : Type} [DecidableEq κ] (inst : κ → Bool) :
    ∀ (ks : List κ) (acc : List (κ × α)),
      (∀ p ∈ acc, inst p.1 = false → p.1 ∈ ks) →
      ks.foldl (fun acc k => if inst k then acc else adel k acc) acc
        = acc.filter (fun p => inst p.1)
  | [], acc, h => by
      rw [List.foldl_nil]
      symm
      rw [List.filter_eq_self]
      intro p hp
      by_contra hinst
      exact absurd (h p hp (by simpa using hinst)) (by simp)
  | k :: ks, acc, h => by
      rw [List.foldl_cons]
      by_cases hk : inst k
      · rw [if_pos hk]
        apply foldl_adel_eq_filter inst ks acc
        intro p hp hpf
        rcases List.mem_cons.mp (h p hp hpf) with h1 | h1
        · rw [h1, hk] at hpf; cases hpf
        · exact h1
      · rw [if_neg hk]
        rw [foldl_adel_eq_filter inst ks (adel k acc) ?hyp]
        case hyp =>
          intro p hp hpf
          rw [adel, List.mem_filter] at hp
          have hne : p.1 ≠ k := by simpa using hp.2
          rcases List.mem_cons.mp (h p hp.1 hpf) with h1 | h1
          · exact absurd h1 hne
          · exact h1
        rw [adel, List.filter_filter]
        apply List.filter_congr
        intro p hp
        have hkf : inst k = false := by simpa using hk
        by_cases hpk : p.1 = k
        · rw [hpk, hkf]
          simp
        · simp [hpk]

/-- Claim C4: for every directory and `includeDevRequirements` flag, the
computed `requires` map equals the ordered union of declared dependencies,
then optional dependencies (overwriting on name collision), then dev
dependencies (overwriting again) only when the flag is set, with every name
whose installed location cannot be found removed — stated both as the
refinement `getRequires = requiresSpec` (the spec-worded filter; no error is
possible, removal is silent) and pointwise, making the overwrite precedence
dev > optional > dependencies explicit. -/
theorem getRequires_correct (env : Env) (dir : Dir) (includeDev : Bool) :
    getRequires env dir includeDev = requiresSpec env dir includeDev ∧
    (∀ k, alook k (getRequires env dir includeDev) =
      if isInstalled env dir k then
        ((if includeDev then
            alook k (env.readManifest dir).devDependencies else none).or
          ((alook k (env.readManifest dir).optionalDependencies).or
            (alook k (env.readManifest dir).dependencies)))
      else none) := by
  have hmain : getRequires env dir includeDev
      = requiresSpec env dir includeDev := by
    simp only [getRequires, requiresSpec]
    apply foldl_adel_eq_filter
    intro p hp _
    exact List.mem_map_of_mem Prod.fst hp
  refine ⟨hmain, fun k => ?_⟩
  rw [hmain]
  simp only [requiresSpec]
  rw [alook_filter_key k (fun x => isInstalled env dir x)]
  by_cases hinst : isInstalled env dir k
  · rw [if_pos hinst, if_pos hinst, alook_spreadO, alook_spreadO]
    cases includeDev <;> simp [alook]
  · rw [if_neg hinst, if_neg hinst]

/-! ## Claim C8 — root-level merge precedence -/

/-- Claim C8: when the root entry's own nested `dependencies` map is merged
into the run's top-level `rootDeps` map, a name bound in both maps resolves
to the entry living in the top-level `rootDeps` map: in the spread
`\x7b ...entry.dependencies, ...ctx.rootDeps \x7d` the root-level binding
overwrites the one merged in from the root entry's nested map. -/
theorem mergedRootDeps_collision (st : BuildState) (rootId : EntryId)
    (n : String) (e1 e2 : EntryId)
    (h1 : alook n (((entryAt st rootId).dependencies).getD []) = some e1)
    (h2 : alook n st.rootDeps = some e2) :
    alook n (mergedRootDeps st rootId) = some e2 := by
  rw [mergedRootDeps, alook_spreadO, h2, Option.or_some]

/-- Witness for `mergedRootDeps_collision`: a state whose root entry binds
`x` to entry 1 while the top-level `rootDeps` binds `x` to entry 2; the
merged map keeps entry 2. -/
theorem mergedRootDeps_collision_witness :
    alook "x" (((entryAt
        { entries := [{ dependencies := some [("x", 1)] }],
          rootDeps := [("x", 2)] } 0).dependencies).getD [])
      = some 1 ∧
    alook "x" (BuildState.rootDeps
        { entries := [{ dependencies := some [("x", 1)] }],
          rootDeps := [("x", 2)] }) = some 2 ∧
    alook "x" (mergedRootDeps
        { entries := [{ dependencies := some [("x", 1)] }],
          rootDeps := [("x", 2)] } 0) = some 2 :=
  ⟨rfl, rfl, mergedRootDeps_collision _ 0 "x" 1 2 rfl rfl⟩

/-! ## Claim C3 — the Scope Resolver -/

/-- Owner chains produced by the builder are strictly decreasing in
allocation order (a container is always allocated before anything inserted
into its map), hence acyclic; the resolver's `while` loop terminates exactly
on such trees. -/
def OwnerWF (t : Tree) : Prop :=
  ∀ i j : EntryId, (t.get i).owner = some j → j < i

/-- Declarative nearest-enclosing-container resolution: the entry's own
nested `dependencies` map is consulted first, and the owner chain is climbed
only on a miss. -/
inductive ResolvesTo (t : Tree) (name : String) : EntryId → EntryId → Prop
  | here (i e : EntryId) :
      resolveDependencyEntryIfExists t i name = some e → ResolvesTo t name i e
  | up (i j e : EntryId) :
      resolveDependencyEntryIfExists t i name = none →
      (t.get i).owner = some j → ResolvesTo t name j e → ResolvesTo t name i e

/-- Declaratively: no container along the owner chain provides the name. -/
inductive NoMatch (t : Tree) (name : String) : EntryId → Prop
  | top (i : EntryId) :
      resolveDependencyEntryIfExists t i name = none →
      (t.get i).owner = none → NoMatch t name i
  | up (i j : EntryId) :
      resolveDependencyEntryIfExists t i name = none →
      (t.get i).owner = some j → NoMatch t name j → NoMatch t name i

theorem resolveGo_correct (t : Tree) (dn err : String) (hwf : OwnerWF t) :
    ∀ parent fuel : Nat, parent < fuel →
      ((∀ e, resolveGo t dn err fuel (some parent) = Except.ok e ↔
          ResolvesTo t dn parent e) ∧
        (resolveGo t dn err fuel (some parent) = Except.error err ↔
          NoMatch t dn parent)) := by
  intro parent
  induction parent using Nat.strong_induction_on with
  | _ parent ih =>
      intro fuel hfuel
      obtain ⟨f, rfl⟩ : ∃ f, fuel = f + 1 := ⟨fuel - 1, by omega⟩
      rw [resolveGo]
      cases hex : resolveDependencyEntryIfExists t parent dn with
      | some e2 =>
          constructor
          · intro e
            constructor
            · intro h
              injection h with he
              subst he
              exact ResolvesTo.here _ _ hex
            · intro h
              cases h with
              | here _ _ h2 => rw [hex] at h2; injection h2 with h2; rw [h2]
              | up _ _ _ h2 => rw [hex] at h2; cases h2
          · constructor
            · intro h; cases h
            · intro h
              cases h with
              | top _ h2 => rw [hex] at h2; cases h2
              | up _ _ h2 => rw [hex] at h2; cases h2
      | none =>
          cases how : (t.get parent).owner with
          | none =>
              rw [resolveGo]
              constructor
              · intro e
                constructor
                · intro h; cases h
                · intro h
                  cases h with
                  | here _ _ h2 => rw [hex] at h2; cases h2
                  | up _ _ _ h2 h3 => rw [how] at h3; cases h3
              · constructor
                · intro _; exact NoMatch.top _ hex how
                · intro _; rfl
          | some j =>
              have hj : j < parent := hwf parent j how
              have := ih j hj f
                (Nat.lt_of_lt_of_le hj (Nat.lt_succ_iff.mp hfuel))
              constructor
              · intro e
                rw [this.1 e]
                constructor
                · intro h; exact ResolvesTo.up _ j _ hex how h
                · intro h
                  cases h with
                  | here _ _ h2 => rw [hex] at h2; cases h2
                  | up _ j2 _ _ h3 h4 =>
                      rw [how] at h3; injection h3 with h3; rw [← h3] at h4
                      exact h4
              · rw [this.2]
                constructor
                · intro h; exact NoMatch.up _ j hex how h
                · intro h
                  cases h with
                  | top _ _ h3 => rw [how] at h3; cases h3
                  | up _ j2 _ h3 h4 =>
                      rw [how] at h3; injection h3 with h3; rw [← h3] at h4
                      exact h4

/-- Claim C3: for every requiring entry and dependency name (on a tree with
well-founded owner chains and enough fuel for the source's unbounded loop),
scope resolution succeeds exactly on the nearest-enclosing-container
relation `ResolvesTo` — own nested `dependencies` map first, then the owner
chain — and, when the chain is exhausted without a match (`NoMatch`), it
fails with the fatal internal-consistency error message, never with an
ok-but-unmatched result. -/
theorem resolveDependencyEntry_correct (t : Tree) (fuel parent : EntryId)
    (parentName depName : String) (hwf : OwnerWF t) (hfuel : parent < fuel) :
    (∀ e, resolveDependencyEntry t fuel parent parentName depName
        = Except.ok e ↔ ResolvesTo t depName parent e) ∧
    (resolveDependencyEntry t fuel parent parentName depName
        = Except.error (resolveErrMsg parentName depName) ↔
      NoMatch t depName parent) :=
  resolveGo_correct t depName (resolveErrMsg parentName depName) hwf
    parent fuel hfuel

/-- The two-entry tree used by the resolver witness: entry 1 is nested under
the root entry 0, which provides `y` in its map; entry 1 provides nothing. -/
def resolveWitnessTree : Tree :=
  ⟨[{ dependencies := some [("y", 1)] }, { owner := some 0 }]⟩

theorem resolveWitnessTree_ownerWF : OwnerWF resolveWitnessTree := by
  intro i j h
  match i with
  | 0 =>
      rw [show (resolveWitnessTree.get 0).owner = none from rfl] at h
      cases h
  | 1 =>
      rw [show (resolveWitnessTree.get 1).owner = some 0 from rfl] at h
      injection h with h
      cases h
      exact Nat.zero_lt_one
  | n + 2 =>
      rw [show (resolveWitnessTree.get (n + 2)).owner = none from rfl] at h
      cases h

/-- Witness for `resolveDependencyEntry_correct`: in `resolveWitnessTree`,
resolving `y` from entry 1 climbs to the root and returns entry 1's sibling
binding, and resolving the absent `z` produces exactly the fatal
internal-consistency error message. -/
theorem resolveDependencyEntry_correct_witness :
    ResolvesTo resolveWitnessTree "y" 1 1 ∧ NoMatch resolveWitnessTree "z" 1 :=
  ⟨((resolveDependencyEntry_correct resolveWitnessTree 2 1 "p" "y"
        resolveWitnessTree_ownerWF (by decide)).1 1).mp rfl,
    (resolveDependencyEntry_correct resolveWitnessTree 2 1 "p" "z"
        resolveWitnessTree_ownerWF (by decide)).2.mp rfl⟩

/-! ## Claim C9 — `walkEntries` is a post-order traversal -/

theorem visitsGo_append (t : Tree) :
    ∀ (fuel : Nat) (odeps : Option Deps) (l : List EntryId),
      walkEntriesG (fun _ => t) (fun acc i => acc ++ [i]) fuel l odeps
        = (walkEntriesVisits t fuel odeps).map (fun v => l ++ v)
  | fuel, none, l => by simp [walkEntriesG, walkEntriesVisits]
  | 0, some deps, l => by simp [walkEntriesG, walkEntriesVisits]
  | fuel + 1, some deps, l => by
      rw [walkEntriesVisits, walkEntriesG, walkEntriesG]
      induction deps generalizing l with
      | nil => simp [walkEntriesGList]
      | cons p rest ih =>
          obtain ⟨n, i⟩ := p
          rw [walkEntriesGList, walkEntriesGList]
          rw [visitsGo_append t fuel ((Tree.get t i).dependencies) l]
          rw [show walkEntriesG (fun _ => t) (fun acc i => acc ++ [i]) fuel []
                ((Tree.get t i).dependencies)
              = walkEntriesVisits t fuel ((Tree.get t i).dependencies)
            from rfl]
          cases hv : walkEntriesVisits t fuel ((Tree.get t i).dependencies) with
          | none => simp
          | some v1 =>
              simp only [Option.map]
              rw [ih ((l ++ v1) ++ [i]), ih (v1 ++ [i])]
              cases walkEntriesGList (fun _ => t) (fun acc i => acc ++ [i])
                  (walkEntriesG (fun _ => t) (fun acc i => acc ++ [i]) fuel)
                  [] rest with
              | none => simp
              | some w => simp

theorem visitsGo_append_list (t : Tree) (fuel : Nat) (rest : Deps)
    (l : List EntryId) :
    walkEntriesGList (fun _ => t) (fun acc i => acc ++ [i])
        (walkEntriesG (fun _ => t) (fun acc i => acc ++ [i]) fuel) l rest
      = (walkEntriesGList (fun _ => t) (fun acc i => acc ++ [i])
          (walkEntriesG (fun _ => t) (fun acc i => acc ++ [i]) fuel)
          [] rest).map (fun w => l ++ w) := by
  have := visitsGo_append t (fuel + 1) (some rest) l
  rw [walkEntriesG, walkEntriesVisits, walkEntriesG] at this
  exact this

/-- One step of the visit-list computation: the block for a child `i` is the
visit list of `i`'s nested map, then `i`, then the blocks of the remaining
siblings. -/
theorem visitsList_cons (t : Tree) (fuel : Nat) (n : String) (i : EntryId)
    (rest : Deps) :
    walkEntriesGList (fun _ => t) (fun acc i => acc ++ [i])
        (walkEntriesG (fun _ => t) (fun acc i => acc ++ [i]) fuel)
        [] ((n, i) :: rest)
      = (walkEntriesVisits t fuel ((t.get i).dependencies)).bind
          (fun v1 => (walkEntriesGList (fun _ => t) (fun acc i => acc ++ [i])
              (walkEntriesG (fun _ => t) (fun acc i => acc ++ [i]) fuel)
              [] rest).map (fun w => v1 ++ [i] ++ w)) := by
  rw [walkEntriesGList]
  rw [show walkEntriesG (fun _ => t) (fun acc i => acc ++ [i]) fuel []
        ((Tree.get t i).dependencies)
      = walkEntriesVisits t fuel ((t.get i).dependencies) from rfl]
  cases hv : walkEntriesVisits t fuel ((t.get i).dependencies) with
  | none => simp
  | some v1 =>
      simp only [Option.some_bind]
      rw [visitsGo_append_list t fuel rest (v1 ++ [i])]

/-- Every entry bound in the walked map occurs in the visit list. -/
theorem visits_mem_of_child (t : Tree) (fuel : Nat) :
    ∀ (deps : Deps) (v : List EntryId),
      walkEntriesVisits t (fuel + 1) (some deps) = some v →
      ∀ n c, (n, c) ∈ deps → c ∈ v
  | [], v, hv, n, c, hm => by cases hm
  | (m, j) :: rest, v, hv, n, c, hm => by
      rw [show walkEntriesVisits t (fuel + 1) (some ((m, j) :: rest))
          = walkEntriesGList (fun _ => t) (fun acc i => acc ++ [i])
              (walkEntriesG (fun _ => t) (fun acc i => acc ++ [i]) fuel)
              [] ((m, j) :: rest) from rfl,
        visitsList_cons] at hv
      cases hv1 : walkEntriesVisits t fuel ((t.get j).dependencies) with
      | none => rw [hv1] at hv; cases hv
      | some v1 =>
          rw [hv1, Option.some_bind] at hv
          cases hw : walkEntriesGList (fun _ => t) (fun acc i => acc ++ [i])
              (walkEntriesG (fun _ => t) (fun acc i => acc ++ [i]) fuel)
              [] rest with
          | none => rw [hw] at hv; cases hv
          | some w =>
              rw [hw] at hv
              injection hv with hv
              subst hv
              rcases List.mem_cons.mp hm with h1 | h1
              · injection h1 with h1a h1b
                subst h1b
                simp
              · have : c ∈ w :=
                  visits_mem_of_child t fuel rest w hw n c h1
                simp [this]

/-- The post-order property of the visit list: whenever an entry occurs at
position `k`, every child bound in its nested `dependencies` map occurs at
some earlier position. -/
theorem visits_postorder (t : Tree) :
    ∀ (fuel : Nat) (odeps : Option Deps) (v : List EntryId),
      walkEntriesVisits t fuel odeps = some v →
      ∀ k e, v.get? k = some e → ∀ n c, (n, c) ∈ kids t e →
        ∃ j, j < k ∧ v.get? j = some c
  | fuel, none, v, hv => by
      rw [show walkEntriesVisits t fuel none = some [] from by
        cases fuel <;> rfl] at hv
      injection hv with hv
      subst hv
      intro k e hk
      cases k <;> cases hk
  | 0, some deps, v, hv => by cases hv
  | fuel + 1, some deps, v, hv => by
      induction deps generalizing v with
      | nil =>
          rw [show walkEntriesVisits t (fuel + 1) (some []) = some [] from rfl]
            at hv
          injection hv with hv
          subst hv
          intro k e hk
          cases k <;> cases hk
      | cons p rest ih =>
          obtain ⟨m, j⟩ := p
          rw [show walkEntriesVisits t (fuel + 1) (some ((m, j) :: rest))
              = walkEntriesGList (fun _ => t) (fun acc i => acc ++ [i])
                  (walkEntriesG (fun _ => t) (fun acc i => acc ++ [i]) fuel)
                  [] ((m, j) :: rest) from rfl,
            visitsList_cons] at hv
          cases hv1 : walkEntriesVisits t fuel ((t.get j).dependencies) with
          | none => rw [hv1] at hv; cases hv
          | some v1 =>
              rw [hv1, Option.some_bind] at hv
              cases hw : walkEntriesGList (fun _ => t)
                  (fun acc i => acc ++ [i])
                  (walkEntriesG (fun _ => t) (fun acc i => acc ++ [i]) fuel)
                  [] rest with
              | none => rw [hw] at hv; cases hv
              | some w =>
                  rw [hw, show Option.map (fun w2 => v1 ++ [j] ++ w2) (some w)
                      = some (v1 ++ [j] ++ w) from rfl] at hv
                  injection hv with hv
                  subst hv
                  intro k e hk n c hc
                  have hlen1 : (v1 ++ [j]).length = v1.length + 1 := by simp
                  rcases Nat.lt_trichotomy k v1.length with hlt | heq | hgt
                  · rw [List.get?_append (by omega),
                      List.get?_append hlt] at hk
                    obtain ⟨j2, hj2, hj2v⟩ :=
                      visits_postorder t fuel ((t.get j).dependencies) v1 hv1
                        k e hk n c hc
                    refine ⟨j2, hj2, ?_⟩
                    rw [List.get?_append (by omega),
                      List.get?_append (by omega)]
                    exact hj2v
                  · subst heq
                    rw [List.get?_append (by omega),
                      List.get?_append_right (Nat.le_refl _),
                      Nat.sub_self] at hk
                    injection hk with hk
                    subst hk
                    have hje : c ∈ v1 := by
                      rw [kids] at hc
                      cases hd : (t.get j).dependencies with
                      | none => rw [hd] at hc; cases hc
                      | some deps2 =>
                          rw [hd] at hc
                          simp only [Option.getD] at hc
                          rw [hd] at hv1
                          cases fuel with
                          | zero => cases hv1
                          | succ f =>
                              exact visits_mem_of_child t f deps2 v1 hv1 n c hc
                    obtain ⟨j2, hj2v⟩ := List.mem_iff_get?.mp hje
                    have hj2len : j2 < v1.length := by
                      by_contra hno
                      rw [List.get?_eq_none.mpr (by omega)] at hj2v
                      cases hj2v
                    refine ⟨j2, hj2len, ?_⟩
                    rw [List.get?_append (by omega),
                      List.get?_append hj2len]
                    exact hj2v
                  · have hlen2 : (v1 ++ [j]).length ≤ k := by omega
                    rw [List.get?_append_right hlen2] at hk
                    obtain ⟨j2, hj2, hj2v⟩ :=
                      ih w (by
                        rw [show walkEntriesVisits t (fuel + 1) (some rest)
                            = walkEntriesGList (fun _ => t)
                                (fun acc i => acc ++ [i])
                                (walkEntriesG (fun _ => t)
                                  (fun acc i => acc ++ [i]) fuel)
                                [] rest from rfl]
                        exact hw)
                        (k - (v1 ++ [j]).length) e hk n c hc
                    refine ⟨(v1 ++ [j]).length + j2, by omega, ?_⟩
                    rw [List.get?_append_right (Nat.le_add_right _ _),
                      Nat.add_sub_cancel_left]
                    exact hj2v

/-- Every visitor is applied by folding it, in order, over the post-order
visit list (so the traversal order is visitor-independent for visitors that
do not alter the nesting structure). -/
theorem walkEntriesG_fold (t : Tree) {σ : Type} (visit : σ → EntryId → σ) :
    ∀ (fuel : Nat) (odeps : Option Deps) (s : σ),
      walkEntriesG (fun _ => t) visit fuel s odeps
        = (walkEntriesVisits t fuel odeps).map (fun v => v.foldl visit s)
  | fuel, none, s => by
      rw [show walkEntriesVisits t fuel none = some [] from by
        cases fuel <;> rfl]
      cases fuel <;> rfl
  | 0, some deps, s => rfl
  | fuel + 1, some deps, s => by
      rw [show walkEntriesVisits t (fuel + 1) (some deps)
          = walkEntriesGList (fun _ => t) (fun acc i => acc ++ [i])
              (walkEntriesG (fun _ => t) (fun acc i => acc ++ [i]) fuel)
              [] deps from rfl]
      rw [show walkEntriesG (fun _ => t) visit (fuel + 1) s (some deps)
          = walkEntriesGList (fun _ => t) visit
              (walkEntriesG (fun _ => t) visit fuel) s deps from rfl]
      induction deps generalizing s with
      | nil => rfl
      | cons p rest ih =>
          obtain ⟨m, j⟩ := p
          rw [visitsList_cons, walkEntriesGList]
          rw [show Tree.get ((fun _ => t) s) j = t.get j from rfl]
          rw [walkEntriesG_fold t visit fuel ((t.get j).dependencies) s]
          cases hv1 : walkEntriesVisits t fuel ((t.get j).dependencies) with
          | none => rfl
          | some v1 =>
              simp only [Option.map, Option.some_bind]
              rw [ih (visit (v1.foldl visit s) j)]
              cases hw : walkEntriesGList (fun _ => t)
                  (fun acc i => acc ++ [i])
                  (walkEntriesG (fun _ => t) (fun acc i => acc ++ [i]) fuel)
                  [] rest with
              | none => rfl
              | some w => simp [List.foldl_append]

/-- Claim C9: `walkEntries` on any nested entry tree is a post-order
traversal: whatever the visitor, the run folds it over the canonical visit
list (`walkEntriesVisits`), and in that list every entry bound in an
entry's nested `dependencies` map is visited strictly before that entry,
at each of its occurrences. -/
theorem walkEntries_postorder (t : Tree) (fuel : Nat) (odeps : Option Deps)
    (v : List EntryId) (hv : walkEntriesVisits t fuel odeps = some v) :
    (∀ (σ : Type) (visit : σ → EntryId → σ) (s : σ),
        walkEntriesG (fun _ => t) visit fuel s odeps
          = some (v.foldl visit s)) ∧
    (∀ k e, v.get? k = some e → ∀ n c, (n, c) ∈ kids t e →
        ∃ j, j < k ∧ v.get? j = some c) :=
  ⟨fun σ visit s => by rw [walkEntriesG_fold t visit fuel odeps s, hv]; rfl,
    visits_postorder t fuel odeps v hv⟩

/-- The tree for the post-order witness: the map walked binds `a` to
entry 1, whose nested map binds `b` to entry 2. -/
def postWitnessTree : Tree :=
  ⟨[{}, { dependencies := some [("b", 2)] }, {}]⟩

/-- Witness for `walkEntries_postorder`: the visit list is `[2, 1]` (child
before parent), the fold characterization instantiated at a concrete
visitor reproduces the run, and entry 1's child 2 is visited earlier. -/
theorem walkEntries_postorder_witness :
    walkEntriesVisits postWitnessTree 3 (some [("a", 1)]) = some [2, 1] ∧
    walkEntriesG (fun _ => postWitnessTree) (fun n _ => n + 1) 3 0
        (some [("a", 1)]) = some 2 ∧
    (∃ j, j < 1 ∧ [2, 1].get? j = some 2) :=
  ⟨rfl,
    (walkEntries_postorder postWitnessTree 3 (some [("a", 1)]) [2, 1]
        rfl).1 Nat (fun n _ => n + 1) 0,
    (walkEntries_postorder postWitnessTree 3 (some [("a", 1)]) [2, 1]
        rfl).2 1 1 rfl "b" 2 (by decide)⟩

/-! ## Tree mutation and the nesting relation -/

theorem Tree.size_setE (t : Tree) (i : EntryId) (e : Entry) :
    (t.setE i e).size = t.size := by
  simp [Tree.setE, Tree.size]

theorem Tree.get_setE (t : Tree) (i : EntryId) (e : Entry) (k : EntryId) :
    (t.setE i e).get k
      = if k = i ∧ i < t.size then e else t.get k := by
  show ((t.entries.set i e).get? k).getD {} = _
  rw [List.get?_set]
  by_cases hk : i = k
  · subst hk
    by_cases hlen : i < t.entries.length
    · rw [if_pos rfl, List.get?_eq_get hlen, if_pos ⟨rfl, hlen⟩]
      rfl
    · rw [if_pos rfl, List.get?_eq_none.mpr (Nat.le_of_not_lt hlen),
        if_neg (fun hc => hlen hc.2)]
      show ({} : Entry) = (t.entries.get? i).getD {}
      rw [List.get?_eq_none.mpr (Nat.le_of_not_lt hlen)]
      rfl
  · rw [if_neg hk, if_neg (fun hc => hk hc.1.symm)]
    rfl

theorem Tree.get_modifyE (t : Tree) (i : EntryId) (f : Entry → Entry)
    (k : EntryId) :
    (t.modifyE i f).get k
      = if k = i ∧ i < t.size then f (t.get i) else t.get k :=
  Tree.get_setE t i (f (t.get i)) k

theorem Tree.size_modifyE (t : Tree) (i : EntryId) (f : Entry → Entry) :
    (t.modifyE i f).size = t.size :=
  Tree.size_setE t i (f (t.get i))

/-- Membership of an entry in the nested tree hanging off a `dependencies`
map: either bound directly in the map, or bound in the nested map of a
member. -/
inductive InTree (t : Tree) (deps : Deps) : EntryId → Prop
  | here (n : String) (i : EntryId) : (n, i) ∈ deps → InTree t deps i
  | nest (n : String) (j i : EntryId) :
      InTree t deps j → (n, i) ∈ kids t j → InTree t deps i

/-- `InTree` lifted to the optional map the walkers receive. -/
def InTreeOpt (t : Tree) : Option Deps → EntryId → Prop
  | none, _ => False
  | some deps, i => InTree t deps i

theorem InTree_congr {t t2 : Tree} (hk : ∀ i, kids t i = kids t2 i)
    {deps : Deps} {i : EntryId} (h : InTree t deps i) : InTree t2 deps i := by
  induction h with
  | here n i hm => exact InTree.here n i hm
  | nest n j i _ hm ih => exact InTree.nest n j i ih (hk j ▸ hm)

theorem InTree_cons_iff (t : Tree) (n : String) (j : EntryId) (rest : Deps)
    (i : EntryId) :
    InTree t ((n, j) :: rest) i ↔
      (i = j ∨ InTreeOpt t ((t.get j).dependencies) i ∨ InTree t rest i) := by
  constructor
  · intro h
    induction h with
    | here m i hm =>
        rcases List.mem_cons.mp hm with h1 | h1
        · left; exact congrArg Prod.snd h1
        · right; right; exact InTree.here m i h1
    | nest m j2 i hj2 hm ih =>
        rcases ih with h1 | h1 | h1
        · rw [h1] at hm
          right; left
          cases hd : (t.get j).dependencies with
          | none =>
              rw [kids, hd] at hm
              simp at hm
          | some d2 =>
              rw [kids, hd] at hm
              exact InTree.here m i hm
        · right; left
          cases hd : (t.get j).dependencies with
          | none => rw [hd] at h1; exact False.elim h1
          | some d2 =>
              rw [hd] at h1
              exact InTree.nest m j2 i h1 hm
        · right; right
          exact InTree.nest m j2 i h1 hm
  · intro h
    rcases h with h1 | h1 | h1
    · subst h1
      exact InTree.here n i (List.mem_cons_self _ _)
    · cases hd : (t.get j).dependencies with
      | none => rw [hd] at h1; exact False.elim h1
      | some d2 =>
          rw [hd] at h1
          have hj : InTree t ((n, j) :: rest) j :=
            InTree.here n j (List.mem_cons_self _ _)
          have h2 : InTree t d2 i := h1
          clear h1
          induction h2 with
          | here m i hm =>
              refine InTree.nest m j i hj ?_
              rw [kids, hd]
              exact hm
          | nest m j2 i _ hm ih => exact InTree.nest m j2 i ih hm
    · induction h1 with
      | here m i hm => exact InTree.here m i (List.mem_cons_of_mem _ hm)
      | nest m j2 i _ hm ih => exact InTree.nest m j2 i ih hm

theorem InTree_nil (t : Tree) (i : EntryId) : ¬ InTree t [] i := by
  intro h
  induction h with
  | here n i hm => cases hm
  | nest _ _ _ _ _ ih => exact ih

/-- The inner loop of a `walkEntries` pass whose visitor `step` rewrites the
visited entry in place through a per-entry function `g` (as captured by
`Hstep`/`Hsize`); `IH` is the characterization of the recursive call one
fuel level down. -/
theorem walkMark_char_list (step : Tree → EntryId → Tree)
    (g : EntryId → Entry → Entry)
    (Hstep : ∀ (s : Tree) (i k : EntryId),
      (step s i).get k = if k = i ∧ i < s.size then g i (s.get i)
        else s.get k)
    (Hsize : ∀ (s : Tree) (i : EntryId), (step s i).size = s.size)
    (Hk : ∀ i e, ((g i e).dependencies).getD [] = (e.dependencies).getD [])
    (Hidem : ∀ i e, g i (g i e) = g i e) (fuel : Nat)
    (IH : ∀ (t : Tree) (odeps : Option Deps) (t2 : Tree),
      walkEntriesG (fun s => s) step fuel t odeps = some t2 →
      (∀ i, InTreeOpt t odeps i → i < t.size) →
      t2.size = t.size ∧
      ∀ i, (InTreeOpt t odeps i → t2.get i = g i (t.get i)) ∧
        (¬ InTreeOpt t odeps i → t2.get i = t.get i)) :
    ∀ (deps : Deps) (t t2 : Tree),
      walkEntriesGList (fun s => s) step
          (walkEntriesG (fun s => s) step fuel) t deps = some t2 →
      (∀ i, InTree t deps i → i < t.size) →
      t2.size = t.size ∧
      ∀ i, (InTree t deps i → t2.get i = g i (t.get i)) ∧
        (¬ InTree t deps i → t2.get i = t.get i) := by
  intro deps
  induction deps with
  | nil =>
      intro t t2 hrun _
      rw [walkEntriesGList] at hrun
      injection hrun with hrun
      subst hrun
      exact ⟨rfl, fun i =>
        ⟨fun hc => absurd hc (InTree_nil t i), fun _ => rfl⟩⟩
  | cons p rest ih_list =>
      obtain ⟨n, j⟩ := p
      intro t t2 hrun Hv
      rw [walkEntriesGList] at hrun
      cases hA : walkEntriesG (fun s => s) step
          fuel t ((Tree.get t j).dependencies) with
      | none => rw [hA] at hrun; cases hrun
      | some tA =>
          rw [hA] at hrun
          have hrun2 : walkEntriesGList (fun s => s) step
              (walkEntriesG (fun s => s) step fuel)
              (step tA j) rest = some t2 := hrun
          clear hrun
          have hsub : ∀ i, InTreeOpt t ((t.get j).dependencies) i →
              i < t.size := by
            intro i hi
            exact Hv i ((InTree_cons_iff t n j rest i).mpr
              (Or.inr (Or.inl hi)))
          obtain ⟨hsizeA, charA⟩ :=
            IH t ((t.get j).dependencies) tA hA hsub
          have pairA : ∀ k, tA.get k = t.get k ∨ tA.get k = g k (t.get k) := by
            intro k
            by_cases hc : InTreeOpt t ((t.get j).dependencies) k
            · exact Or.inr ((charA k).1 hc)
            · exact Or.inl ((charA k).2 hc)
          have kidsA : ∀ k, kids t k = kids tA k := by
            intro k
            rcases pairA k with h | h
            · rw [kids, kids, h]
            · rw [kids, kids, h, Hk]
          have hjlt : j < t.size :=
            Hv j (InTree.here n j (List.mem_cons_self _ _))
          have hBj : (step tA j).get j = g j (t.get j) := by
            rw [Hstep tA j j, if_pos ⟨rfl, hsizeA ▸ hjlt⟩]
            rcases pairA j with h | h
            · rw [h]
            · rw [h, Hidem]
          have hBk : ∀ k, k ≠ j →
              (step tA j).get k = tA.get k := by
            intro k hk
            rw [Hstep tA j k, if_neg (fun hc => hk hc.1)]
          have pairB : ∀ k, (step tA j).get k = t.get k ∨
              (step tA j).get k = g k (t.get k) := by
            intro k
            by_cases hk : k = j
            · subst hk; exact Or.inr hBj
            · rw [hBk k hk]; exact pairA k
          have kidsB : ∀ k, kids t k = kids (step tA j) k := by
            intro k
            rcases pairB k with h | h
            · rw [kids, kids, h]
            · rw [kids, kids, h, Hk]
          have sizeB : (step tA j).size = t.size := by
            rw [Hsize tA j, hsizeA]
          have hValB : ∀ i, InTree (step tA j) rest i →
              i < (step tA j).size := by
            intro i hi
            have : InTree t rest i :=
              InTree_congr (fun k => (kidsB k).symm) hi
            rw [sizeB]
            exact Hv i ((InTree_cons_iff t n j rest i).mpr
              (Or.inr (Or.inr this)))
          obtain ⟨hsize2, charB⟩ := ih_list (step tA j) t2 hrun2 hValB
          refine ⟨by rw [hsize2, sizeB], fun i => ⟨?_, ?_⟩⟩
          · intro hcov
            by_cases hrest : InTree (step tA j) rest i
            · rw [(charB i).1 hrest]
              rcases pairB i with h | h
              · rw [h]
              · rw [h, Hidem]
            · rw [(charB i).2 hrest]
              rcases (InTree_cons_iff t n j rest i).mp hcov with h1 | h1 | h1
              · subst h1; exact hBj
              · by_cases hij : i = j
                · subst hij; exact hBj
                · rw [hBk i hij]
                  exact (charA i).1 h1
              · exact absurd (InTree_congr kidsB h1) hrest
          · intro hcov
            have hij : i ≠ j := by
              intro h
              subst h
              exact hcov (InTree.here n i (List.mem_cons_self _ _))
            have hsubc : ¬ InTreeOpt t ((t.get j).dependencies) i := by
              intro h
              exact hcov ((InTree_cons_iff t n j rest i).mpr
                (Or.inr (Or.inl h)))
            have hrest : ¬ InTree (step tA j) rest i := by
              intro h
              exact hcov ((InTree_cons_iff t n j rest i).mpr
                (Or.inr (Or.inr (InTree_congr
                  (fun k => (kidsB k).symm) h))))
            rw [(charB i).2 hrest, hBk i hij, (charA i).2 hsubc]

/-- Characterization of a `walkEntries` pass whose visitor rewrites each
visited entry in place with a children-preserving, idempotent per-entry
function `g` (the shape of the cleanup pass and of the two marking passes):
a successful pass rewrites exactly the entries of the nested tree once,
leaves every other entry untouched, and preserves the arena size. -/
theorem walkMark_char (step : Tree → EntryId → Tree)
    (g : EntryId → Entry → Entry)
    (Hstep : ∀ (s : Tree) (i k : EntryId),
      (step s i).get k = if k = i ∧ i < s.size then g i (s.get i)
        else s.get k)
    (Hsize : ∀ (s : Tree) (i : EntryId), (step s i).size = s.size)
    (Hk : ∀ i e, ((g i e).dependencies).getD [] = (e.dependencies).getD [])
    (Hidem : ∀ i e, g i (g i e) = g i e) :
    ∀ (fuel : Nat) (t : Tree) (odeps : Option Deps) (t2 : Tree),
      walkEntriesG (fun s => s) step fuel t odeps = some t2 →
      (∀ i, InTreeOpt t odeps i → i < t.size) →
      t2.size = t.size ∧
      ∀ i, (InTreeOpt t odeps i → t2.get i = g i (t.get i)) ∧
        (¬ InTreeOpt t odeps i → t2.get i = t.get i)
  | fuel, t, none, t2 => by
      intro hrun _
      have : some t = some t2 := by
        rw [← hrun]
        cases fuel <;> rfl
      injection this with h
      subst h
      exact ⟨rfl, fun i => ⟨fun hc => absurd hc (fun h => h), fun _ => rfl⟩⟩
  | 0, t, some deps, t2 => by intro hrun; cases hrun
  | fuel + 1, t, some deps, t2 => by
      intro hrun hval
      have hrun2 : walkEntriesGList (fun s => s) step
          (walkEntriesG (fun s => s) step fuel)
          t deps = some t2 := hrun
      exact walkMark_char_list step g Hstep Hsize Hk Hidem fuel
        (walkMark_char step g Hstep Hsize Hk Hidem fuel) deps t t2 hrun2 hval

/-! ## Claim C7 — no empty maps after cleanup -/

theorem cleanEntry_eq (e : Entry) :
    cleanEntry e = { e with
      dependencies := if e.dependencies = some [] then none
        else e.dependencies,
      requires := if e.requires = some [] then none else e.requires } := by
  obtain ⟨v, ig, rs, rq, dp, dv, op, ow⟩ := e
  cases rq with
  | none =>
      cases dp with
      | none => simp [cleanEntry]
      | some l =>
          cases l with
          | nil => simp [cleanEntry]
          | cons a as => simp [cleanEntry]
  | some lr =>
      cases lr with
      | nil =>
          cases dp with
          | none => simp [cleanEntry]
          | some l =>
              cases l with
              | nil => simp [cleanEntry]
              | cons a as => simp [cleanEntry]
      | cons b bs =>
          cases dp with
          | none => simp [cleanEntry]
          | some l =>
              cases l with
              | nil => simp [cleanEntry]
              | cons a as => simp [cleanEntry]

theorem cleanEntry_kids (e : Entry) :
    ((cleanEntry e).dependencies).getD [] = (e.dependencies).getD [] := by
  rw [cleanEntry_eq]
  by_cases hd : e.dependencies = some []
  · simp [hd]
  · simp [hd]

theorem cleanEntry_idem (e : Entry) :
    cleanEntry (cleanEntry e) = cleanEntry e := by
  rw [cleanEntry_eq, cleanEntry_eq]
  by_cases hd : e.dependencies = some [] <;>
    by_cases hr : e.requires = some [] <;>
      simp [hd, hr]

theorem cleanEntry_clean (e : Entry) :
    (cleanEntry e).dependencies ≠ some [] ∧
      (cleanEntry e).requires ≠ some [] := by
  rw [cleanEntry_eq]
  constructor
  · by_cases hd : e.dependencies = some [] <;> simp [hd]
  · by_cases hr : e.requires = some [] <;> simp [hr]

/-- Claim C7: after the post-construction cleanup pass, no entry reachable in
the cleaned tree has a present-but-empty `requires` or `dependencies` map —
such maps are `none`, not `some []` (the later marking passes only touch the
`dev`/`optional` flags, so this is the final tree's shape). -/
theorem cleanupPass_noEmptyMaps (fuel : Nat) (t : Tree) (rootDeps : Deps)
    (t2 : Tree)
    (hval : ∀ i, InTree t rootDeps i → i < t.size)
    (hrun : cleanupPass fuel t rootDeps = some t2) :
    ∀ i, InTree t2 rootDeps i →
      (t2.get i).dependencies ≠ some [] ∧ (t2.get i).requires ≠ some [] := by
  have hrun2 : walkEntriesG (fun s => s)
      (fun s i => s.modifyE i cleanEntry) fuel t (some rootDeps)
      = some t2 := hrun
  obtain ⟨hsize, char⟩ := walkMark_char
    (fun s i => s.modifyE i cleanEntry)
    (fun (_ : EntryId) (e : Entry) => cleanEntry e)
    (fun s i k => Tree.get_modifyE s i cleanEntry k)
    (fun s i => Tree.size_modifyE s i cleanEntry)
    (fun _ e => cleanEntry_kids e) (fun _ e => cleanEntry_idem e)
    fuel t (some rootDeps) t2 hrun2 hval
  have pair : ∀ k, t2.get k = t.get k ∨ t2.get k = cleanEntry (t.get k) := by
    intro k
    by_cases hc : InTree t rootDeps k
    · exact Or.inr ((char k).1 hc)
    · exact Or.inl ((char k).2 hc)
  have hkids : ∀ k, kids t2 k = kids t k := by
    intro k
    rcases pair k with h | h
    · rw [kids, kids, h]
    · rw [kids, kids, h, cleanEntry_kids]
  intro i hi
  have hit : InTree t rootDeps i := InTree_congr hkids hi
  rw [(char i).1 hit]
  exact cleanEntry_clean (t.get i)

/-- The tree for the cleanup witness: the root-level entry 0 has an empty
`requires` map and a nonempty nested map binding `a` to entry 1, which has a
nonempty `requires` map and an empty nested map. -/
def cleanWitnessTree : Tree :=
  ⟨[{ requires := some [], dependencies := some [("a", 1)] },
    { requires := some [("x", "1")], dependencies := some [] }]⟩

theorem cleanWitnessTree_val :
    ∀ i, InTree cleanWitnessTree [("r", 0)] i → i < 2 := by
  intro i h
  induction h with
  | here n i hm =>
      rcases List.mem_cons.mp hm with h1 | h1
      · rw [Prod.mk.injEq] at h1
        rw [h1.2]
        decide
      · cases h1
  | nest n j i hj hm ih =>
      have hj2 : j = 0 ∨ j = 1 := by
        cases j with
        | zero => exact Or.inl rfl
        | succ m =>
            cases m with
            | zero => exact Or.inr rfl
            | succ k => exact absurd ih (by simp [Nat.lt_succ_iff])
      rcases hj2 with hj2 | hj2
      · subst hj2
        rw [show kids cleanWitnessTree 0 = [("a", 1)] from rfl] at hm
        rcases List.mem_cons.mp hm with h1 | h1
        · rw [Prod.mk.injEq] at h1
          rw [h1.2]
          decide
        · cases h1
      · subst hj2
        rw [show kids cleanWitnessTree 1 = [] from rfl] at hm
        cases hm

/-- Witness for `cleanupPass_noEmptyMaps`: on `cleanWitnessTree` the cleanup
pass drops exactly the two empty maps, and the nested entry 1 of the cleaned
tree has no present-but-empty map. -/
theorem cleanupPass_noEmptyMaps_witness :
    cleanupPass 3 cleanWitnessTree [("r", 0)]
      = some ⟨[{ dependencies := some [("a", 1)] },
          { requires := some [("x", "1")] }]⟩ ∧
    ((⟨[{ dependencies := some [("a", 1)] },
        { requires := some [("x", "1")] }]⟩ : Tree).get 1).dependencies
      ≠ some [] ∧
    ((⟨[{ dependencies := some [("a", 1)] },
        { requires := some [("x", "1")] }]⟩ : Tree).get 1).requires
      ≠ some [] :=
  ⟨rfl,
    cleanupPass_noEmptyMaps 3 cleanWitnessTree [("r", 0)] _
      cleanWitnessTree_val rfl 1
      (InTree.nest "a" 0 1
        (InTree.here "r" 0 (List.mem_cons_self _ _))
        (by decide))⟩

/-! ## Claims C5 and C1 — the reachability expansion and the marking passes -/

/-- Logical reachability along resolved `requires` edges.  The parent-name
argument of the resolver only shows up in its error message, so successful
resolution is stated with the fixed name `""`. -/
inductive ReachFrom (t : Tree) (rfuel : Nat) : EntryId → EntryId → Prop
  | refl (e : EntryId) : ReachFrom t rfuel e e
  | tail (e f r : EntryId) (reqs : Requires) (pkg rng : String) :
      ReachFrom t rfuel e f →
      (t.get f).requires = some reqs → (pkg, rng) ∈ reqs →
      resolveDependencyEntry t rfuel f "" pkg = Except.ok r →
      ReachFrom t rfuel e r

/-- An entry is logically reachable from a subset of root requirement names
when some name of the subset is bound in the root map and the entry is
reachable from that binding along resolved `requires` edges. -/
def Reach (t : Tree) (rfuel : Nat) (rootDeps : Deps) (subset : List String)
    (r : EntryId) : Prop :=
  ∃ pkg e, pkg ∈ subset ∧ alook pkg rootDeps = some e ∧ ReachFrom t rfuel e r

theorem ReachFrom_trans {t : Tree} {rfuel : Nat} {a b c : EntryId}
    (h1 : ReachFrom t rfuel a b) (h2 : ReachFrom t rfuel b c) :
    ReachFrom t rfuel a c := by
  induction h2 with
  | refl => exact h1
  | tail f r reqs pkg rng hsub hreq hmem hres ih =>
      exact ReachFrom.tail a f r reqs pkg rng ih hreq hmem hres

theorem resolveGo_ok_irrel (t : Tree) (dn err1 err2 : String) :
    ∀ (fuel : Nat) (o : Option EntryId) (r : EntryId),
      resolveGo t dn err1 fuel o = Except.ok r →
      resolveGo t dn err2 fuel o = Except.ok r
  | fuel, none, r => by
      intro h
      rw [show resolveGo t dn err1 fuel none = Except.error err1 from by
        cases fuel <;> rfl] at h
      cases h
  | 0, some cur, r => by intro h; cases h
  | fuel + 1, some cur, r => by
      intro h
      rw [resolveGo] at h ⊢
      cases hex : resolveDependencyEntryIfExists t cur dn with
      | some e => rw [hex] at h; exact h
      | none =>
          rw [hex] at h
          exact resolveGo_ok_irrel t dn err1 err2 fuel ((t.get cur).owner) r h

theorem resolve_ok_irrel {t : Tree} {rfuel : Nat} {f : EntryId}
    {pn pkg : String} {r : EntryId}
    (h : resolveDependencyEntry t rfuel f pn pkg = Except.ok r) :
    resolveDependencyEntry t rfuel f "" pkg = Except.ok r :=
  resolveGo_ok_irrel t pkg (resolveErrMsg pn pkg) (resolveErrMsg "" pkg)
    rfuel (some f) r h

/-- The edges of an entry are all collected in `A`. -/
def Expanded (t : Tree) (rfuel : Nat) (A : List EntryId) (x : EntryId) :
    Prop :=
  ∀ (reqs : Requires) (pkg rng : String) (r : EntryId),
    (t.get x).requires = some reqs → (pkg, rng) ∈ reqs →
    resolveDependencyEntry t rfuel x "" pkg = Except.ok r → r ∈ A

theorem Expanded_mono {t : Tree} {rfuel : Nat} {A B : List EntryId}
    {x : EntryId} (hAB : ∀ y, y ∈ A → y ∈ B)
    (h : Expanded t rfuel A x) : Expanded t rfuel B x :=
  fun reqs pkg rng r h1 h2 h3 => hAB r (h reqs pkg rng r h1 h2 h3)

theorem mem_insertId {a b : EntryId} {l : List EntryId} :
    a ∈ insertId b l ↔ a = b ∨ a ∈ l := by
  rw [insertId]
  by_cases hb : b ∈ l
  · rw [if_pos hb]
    constructor
    · exact Or.inr
    · rintro (h | h)
      · subst h; exact hb
      · exact h
  · rw [if_neg hb]
    simp [List.mem_append, or_comm]

theorem insertId_append (b : EntryId) (l : List EntryId) :
    ∃ d, insertId b l = l ++ d := by
  rw [insertId]
  by_cases hb : b ∈ l
  · exact ⟨[], by rw [if_pos hb, List.append_nil]⟩
  · exact ⟨[b], by rw [if_neg hb]⟩

theorem insertId_nodup {b : EntryId} {l : List EntryId} (h : l.Nodup) :
    (insertId b l).Nodup := by
  rw [insertId]
  by_cases hb : b ∈ l
  · rw [if_pos hb]; exact h
  · rw [if_neg hb]
    rw [List.nodup_append]
    exact ⟨h, List.nodup_singleton b, by simpa using hb⟩

/-- What a successful `walkDeps` call guarantees: the walked set and the
accumulator only grow (by suffix), every newly collected entry is reachable
from the expanded entry and ends up walked, the entry itself ends up walked,
every newly walked entry has all its edges collected, and both sets stay
duplicate-free. -/
structure WalkOut (t : Tree) (rfuel : Nat) (entry : EntryId)
    (walked acc walked2 acc2 : List EntryId) : Prop where
  wpre : ∃ d, walked2 = walked ++ d
  apre : ∃ d, acc2 = acc ++ d
  sound : ∀ x, x ∈ acc2 → x ∈ acc ∨ ReachFrom t rfuel entry x
  accw : ∀ x, x ∈ acc2 → x ∈ acc ∨ x ∈ walked2
  selfw : entry ∈ walked2
  expd : ∀ x, x ∈ walked2 → x ∈ walked ∨ Expanded t rfuel acc2 x
  wnd : walked.Nodup → walked2.Nodup
  accnd : acc.Nodup → acc2.Nodup

/-- The guarantees of the inner `requires` loop of `walkDeps`, relative to
the suffix `reqs` of the expanded entry's full `requires` list. -/
structure WalkListOut (t : Tree) (rfuel : Nat) (entry : EntryId)
    (reqs : List (String × String))
    (walked acc walked2 acc2 : List EntryId) : Prop where
  wpre : ∃ d, walked2 = walked ++ d
  apre : ∃ d, acc2 = acc ++ d
  sound : ∀ x, x ∈ acc2 → x ∈ acc ∨ ReachFrom t rfuel entry x
  accw : ∀ x, x ∈ acc2 → x ∈ acc ∨ x ∈ walked2
  edges : ∀ (pkg rng : String) (r : EntryId), (pkg, rng) ∈ reqs →
    resolveDependencyEntry t rfuel entry "" pkg = Except.ok r → r ∈ acc2
  expd : ∀ x, x ∈ walked2 → x ∈ walked ∨ Expanded t rfuel acc2 x
  wnd : walked.Nodup → walked2.Nodup
  accnd : acc.Nodup → acc2.Nodup

theorem mem_of_prefixExt {l l2 : List EntryId} (h : ∃ d, l2 = l ++ d)
    {x : EntryId} (hx : x ∈ l) : x ∈ l2 := by
  obtain ⟨d, rfl⟩ := h
  exact List.mem_append_left d hx

theorem prefixExt_trans {l1 l2 l3 : List EntryId}
    (h1 : ∃ d, l2 = l1 ++ d) (h2 : ∃ d, l3 = l2 ++ d) :
    ∃ d, l3 = l1 ++ d := by
  obtain ⟨d1, rfl⟩ := h1
  obtain ⟨d2, rfl⟩ := h2
  exact ⟨d1 ++ d2, by rw [List.append_assoc]⟩

theorem walkDepsList_spec (t : Tree) (rfuel fuel : Nat)
    (IH : ∀ (en : String) (entry : EntryId) (walked acc walked2 acc2 :
        List EntryId),
      walkDepsGo t rfuel fuel en entry walked acc
        = Except.ok (walked2, acc2) →
      WalkOut t rfuel entry walked acc walked2 acc2)
    (en : String) (entry : EntryId) (reqs0 : Requires)
    (hreq : (t.get entry).requires = some reqs0) :
    ∀ (reqs : List (String × String)) (walked acc walked2 acc2 :
        List EntryId),
      (∀ p, p ∈ reqs → p ∈ reqs0) →
      walkDepsList t rfuel (walkDepsGo t rfuel fuel) en entry reqs
          walked acc = Except.ok (walked2, acc2) →
      WalkListOut t rfuel entry reqs walked acc walked2 acc2
  | [], walked, acc, walked2, acc2, hsub, hrun => by
      rw [walkDepsList] at hrun
      injection hrun with hrun
      injection hrun with h1 h2
      subst h1
      subst h2
      exact
        { wpre := ⟨[], by rw [List.append_nil]⟩
          apre := ⟨[], by rw [List.append_nil]⟩
          sound := fun x hx => Or.inl hx
          accw := fun x hx => Or.inl hx
          edges := fun pkg rng r hmem => by cases hmem
          expd := fun x hx => Or.inl hx
          wnd := fun h => h
          accnd := fun h => h }
  | (pkg, rng) :: rest, walked, acc, walked2, acc2, hsub, hrun => by
      rw [walkDepsList] at hrun
      cases hres : resolveDependencyEntry t rfuel entry en pkg with
      | error e => rw [hres] at hrun; cases hrun
      | ok r =>
          rw [hres] at hrun
          have hrun2 : (match walkDepsGo t rfuel fuel pkg r walked
                (insertId r acc) with
              | Except.error e => Except.error e
              | Except.ok (w, a) =>
                  walkDepsList t rfuel (walkDepsGo t rfuel fuel) en entry
                    rest w a)
              = Except.ok (walked2, acc2) := hrun
          clear hrun
          cases hgo : walkDepsGo t rfuel fuel pkg r walked
              (insertId r acc) with
          | error e =>
              rw [hgo] at hrun2
              exact absurd hrun2 (fun h => by cases h)
          | ok p1 =>
              obtain ⟨w1, a1⟩ := p1
              rw [hgo] at hrun2
              have hrun3 : walkDepsList t rfuel (walkDepsGo t rfuel fuel)
                  en entry rest w1 a1 = Except.ok (walked2, acc2) := hrun2
              have sub := IH pkg r walked (insertId r acc) w1 a1 hgo
              have restOut := walkDepsList_spec t rfuel fuel IH en entry
                reqs0 hreq rest w1 a1 walked2 acc2
                (fun p hp => hsub p (List.mem_cons_of_mem _ hp)) hrun3
              have hres0 : resolveDependencyEntry t rfuel entry "" pkg
                  = Except.ok r := resolve_ok_irrel hres
              have hedge : ReachFrom t rfuel entry r :=
                ReachFrom.tail entry entry r reqs0 pkg rng
                  (ReachFrom.refl entry) hreq
                  (hsub (pkg, rng) (List.mem_cons_self _ _)) hres0
              have hinsa : ∃ d, a1 = acc ++ d :=
                prefixExt_trans (insertId_append r acc) sub.apre
              have ha1acc2 : ∀ x, x ∈ a1 → x ∈ acc2 :=
                fun x hx => mem_of_prefixExt restOut.apre hx
              refine
                { wpre := prefixExt_trans sub.wpre restOut.wpre
                  apre := prefixExt_trans hinsa restOut.apre
                  sound := ?_
                  accw := ?_
                  edges := ?_
                  expd := ?_
                  wnd := fun h => restOut.wnd (sub.wnd h)
                  accnd := fun h =>
                    restOut.accnd (sub.accnd (insertId_nodup h)) }
              · intro x hx
                rcases restOut.sound x hx with hx1 | hx1
                · rcases sub.sound x hx1 with hx2 | hx2
                  · rcases mem_insertId.mp hx2 with hx3 | hx3
                    · subst hx3; exact Or.inr hedge
                    · exact Or.inl hx3
                  · exact Or.inr (ReachFrom_trans hedge hx2)
                · exact Or.inr hx1
              · intro x hx
                rcases restOut.accw x hx with hx1 | hx1
                · rcases sub.accw x hx1 with hx2 | hx2
                  · rcases mem_insertId.mp hx2 with hx3 | hx3
                    · subst hx3
                      exact Or.inr (mem_of_prefixExt restOut.wpre sub.selfw)
                    · exact Or.inl hx3
                  · exact Or.inr (mem_of_prefixExt restOut.wpre hx2)
                · exact Or.inr hx1
              · intro pkg2 rng2 r2 hmem hres2
                rcases List.mem_cons.mp hmem with h1 | h1
                · rw [Prod.mk.injEq] at h1
                  rw [h1.1] at hres2
                  rw [hres0] at hres2
                  injection hres2 with hres2
                  subst hres2
                  exact ha1acc2 r
                    (mem_of_prefixExt sub.apre (mem_insertId.mpr (Or.inl rfl)))
                · exact restOut.edges pkg2 rng2 r2 h1 hres2
              · intro x hx
                rcases restOut.expd x hx with hx1 | hx1
                · rcases sub.expd x hx1 with hx2 | hx2
                  · exact Or.inl hx2
                  · exact Or.inr (Expanded_mono ha1acc2 hx2)
                · exact Or.inr hx1

theorem walkDepsGo_spec (t : Tree) (rfuel : Nat) :
    ∀ (fuel : Nat) (en : String) (entry : EntryId)
      (walked acc walked2 acc2 : List EntryId),
      walkDepsGo t rfuel fuel en entry walked acc
        = Except.ok (walked2, acc2) →
      WalkOut t rfuel entry walked acc walked2 acc2
  | 0, en, entry, walked, acc, walked2, acc2 => by
      intro hrun
      cases hrun
  | fuel + 1, en, entry, walked, acc, walked2, acc2 => by
      intro hrun
      rw [walkDepsGo] at hrun
      by_cases hw : entry ∈ walked
      · rw [if_pos hw] at hrun
        injection hrun with hrun
        injection hrun with h1 h2
        subst h1
        subst h2
        exact
          { wpre := ⟨[], by rw [List.append_nil]⟩
            apre := ⟨[], by rw [List.append_nil]⟩
            sound := fun x hx => Or.inl hx
            accw := fun x hx => Or.inl hx
            selfw := hw
            expd := fun x hx => Or.inl hx
            wnd := fun h => h
            accnd := fun h => h }
      · rw [if_neg hw] at hrun
        cases hreq : (t.get entry).requires with
        | none =>
            rw [hreq] at hrun
            injection hrun with hrun
            injection hrun with h1 h2
            subst h1
            subst h2
            exact
              { wpre := ⟨[entry], rfl⟩
                apre := ⟨[], by rw [List.append_nil]⟩
                sound := fun x hx => Or.inl hx
                accw := fun x hx => Or.inl hx
                selfw := List.mem_append_right walked (List.mem_singleton.mpr rfl)
                expd := fun x hx => by
                  rcases List.mem_append.mp hx with h1 | h1
                  · exact Or.inl h1
                  · rw [List.mem_singleton] at h1
                    subst h1
                    refine Or.inr (fun reqs pkg rng r h2 h3 h4 => ?_)
                    rw [hreq] at h2
                    cases h2
                wnd := fun h => by
                  rw [List.nodup_append]
                  exact ⟨h, List.nodup_singleton entry, by simpa using hw⟩
                accnd := fun h => h }
        | some reqs =>
            rw [hreq] at hrun
            have listOut := walkDepsList_spec t rfuel fuel
              (walkDepsGo_spec t rfuel fuel) en entry reqs hreq reqs
              (walked ++ [entry]) acc walked2 acc2 (fun p hp => hp) hrun
            have hwpre : ∃ d, walked2 = walked ++ d := by
              obtain ⟨d, hd⟩ := listOut.wpre
              exact ⟨[entry] ++ d, by rw [hd, List.append_assoc]⟩
            refine
              { wpre := hwpre
                apre := listOut.apre
                sound := listOut.sound
                accw := listOut.accw
                selfw := mem_of_prefixExt listOut.wpre
                  (List.mem_append_right walked (List.mem_singleton.mpr rfl))
                expd := ?_
                wnd := fun h => listOut.wnd (by
                  rw [List.nodup_append]
                  exact ⟨h, List.nodup_singleton entry, by simpa using hw⟩)
                accnd := listOut.accnd }
            intro x hx
            rcases listOut.expd x hx with h1 | h1
            · rcases List.mem_append.mp h1 with h2 | h2
              · exact Or.inl h2
              · rw [List.mem_singleton] at h2
                subst h2
                refine Or.inr (fun reqs2 pkg rng r h3 h4 h5 => ?_)
                rw [hreq] at h3
                injection h3 with h3
                subst h3
                exact listOut.edges pkg rng r h4 h5
            · exact Or.inr h1

/-- The guarantees of `walkNonSubsetDeps`'s collection loop: the `subsetDeps`
accumulator only grows, its new elements are exactly the logically reachable
entries (every subset binding is in it, every collected entry has all its
edges collected), and it stays duplicate-free. -/
structure CollectOut (t : Tree) (rfuel : Nat) (rootDeps : Deps)
    (subset : List String) (acc S : List EntryId) : Prop where
  apre : ∃ d, S = acc ++ d
  sound : ∀ x, x ∈ S → x ∈ acc ∨ Reach t rfuel rootDeps subset x
  base : ∀ (pkg : String) (e : EntryId), pkg ∈ subset →
    alook pkg rootDeps = some e → e ∈ S
  expd : ∀ x, x ∈ S → x ∈ acc ∨ Expanded t rfuel S x
  accnd : acc.Nodup → S.Nodup

theorem collectSubsetDeps_spec (t : Tree) (rfuel wfuel : Nat)
    (rootDeps : Deps) :
    ∀ (subset : List String) (acc S : List EntryId),
      collectSubsetDeps t rfuel wfuel rootDeps subset acc = Except.ok S →
      CollectOut t rfuel rootDeps subset acc S
  | [], acc, S => by
      intro hrun
      rw [collectSubsetDeps] at hrun
      injection hrun with hrun
      subst hrun
      exact
        { apre := ⟨[], by rw [List.append_nil]⟩
          sound := fun x hx => Or.inl hx
          base := fun pkg e hmem => by cases hmem
          expd := fun x hx => Or.inl hx
          accnd := fun h => h }
  | pkg :: rest, acc, S => by
      intro hrun
      rw [collectSubsetDeps] at hrun
      cases hlook : alook pkg rootDeps with
      | none =>
          rw [hlook] at hrun
          have restOut := collectSubsetDeps_spec t rfuel wfuel rootDeps
            rest acc S hrun
          refine
            { apre := restOut.apre
              sound := ?_
              base := ?_
              expd := restOut.expd
              accnd := restOut.accnd }
          · intro x hx
            rcases restOut.sound x hx with h1 | h1
            · exact Or.inl h1
            · obtain ⟨p2, e2, hp2, hl2, hr2⟩ := h1
              exact Or.inr ⟨p2, e2, List.mem_cons_of_mem _ hp2, hl2, hr2⟩
          · intro pkg2 e hmem hlook2
            rcases List.mem_cons.mp hmem with h1 | h1
            · subst h1
              rw [hlook] at hlook2
              cases hlook2
            · exact restOut.base pkg2 e h1 hlook2
      | some entry =>
          rw [hlook] at hrun
          have hrun2 : (match walkDepsGo t rfuel wfuel pkg entry []
                (insertId entry acc) with
              | Except.error e => Except.error e
              | Except.ok (w, a) =>
                  collectSubsetDeps t rfuel wfuel rootDeps rest a)
              = Except.ok S := hrun
          clear hrun
          cases hgo : walkDepsGo t rfuel wfuel pkg entry []
              (insertId entry acc) with
          | error e =>
              rw [hgo] at hrun2
              exact absurd hrun2 (fun h => by cases h)
          | ok p1 =>
              obtain ⟨w1, a1⟩ := p1
              rw [hgo] at hrun2
              have hrun3 : collectSubsetDeps t rfuel wfuel rootDeps rest a1
                  = Except.ok S := hrun2
              have sub := walkDepsGo_spec t rfuel wfuel pkg entry []
                (insertId entry acc) w1 a1 hgo
              have restOut := collectSubsetDeps_spec t rfuel wfuel rootDeps
                rest a1 S hrun3
              have hbase : Reach t rfuel rootDeps (pkg :: rest) entry :=
                ⟨pkg, entry, List.mem_cons_self _ _, hlook,
                  ReachFrom.refl entry⟩
              have hinsa : ∃ d, a1 = acc ++ d :=
                prefixExt_trans (insertId_append entry acc) sub.apre
              have ha1S : ∀ x, x ∈ a1 → x ∈ S :=
                fun x hx => mem_of_prefixExt restOut.apre hx
              refine
                { apre := prefixExt_trans hinsa restOut.apre
                  sound := ?_
                  base := ?_
                  expd := ?_
                  accnd := fun h =>
                    restOut.accnd (sub.accnd (insertId_nodup h)) }
              · intro x hx
                rcases restOut.sound x hx with h1 | h1
                · rcases sub.sound x h1 with h2 | h2
                  · rcases mem_insertId.mp h2 with h3 | h3
                    · subst h3; exact Or.inr hbase
                    · exact Or.inl h3
                  · obtain ⟨p2, e2, hp2, hl2, hr2⟩ := hbase
                    exact Or.inr ⟨pkg, entry, List.mem_cons_self _ _, hlook,
                      h2⟩
                · obtain ⟨p2, e2, hp2, hl2, hr2⟩ := h1
                  exact Or.inr ⟨p2, e2, List.mem_cons_of_mem _ hp2, hl2, hr2⟩
              · intro pkg2 e hmem hlook2
                rcases List.mem_cons.mp hmem with h1 | h1
                · subst h1
                  rw [hlook] at hlook2
                  injection hlook2 with hlook2
                  subst hlook2
                  exact ha1S entry (mem_of_prefixExt sub.apre
                    (mem_insertId.mpr (Or.inl rfl)))
                · exact restOut.base pkg2 e h1 hlook2
              · intro x hx
                rcases restOut.expd x hx with h1 | h1
                · rcases sub.accw x h1 with h2 | h2
                  · rcases mem_insertId.mp h2 with h3 | h3
                    · subst h3
                      rcases sub.expd x sub.selfw with h4 | h4
                      · cases h4
                      · exact Or.inr (Expanded_mono ha1S h4)
                    · exact Or.inl h3
                  · rcases sub.expd x h2 with h4 | h4
                    · cases h4
                    · exact Or.inr (Expanded_mono ha1S h4)
                · exact Or.inr (Expanded_mono
                    (fun y hy => hy) h1)

/-- On a run started with an empty accumulator, the collected `subsetDeps`
set is exactly the set of logically reachable entries, each exactly once. -/
theorem collectSubsetDeps_reach (t : Tree) (rfuel wfuel : Nat)
    (rootDeps : Deps) (subset : List String) (S : List EntryId)
    (hrun : collectSubsetDeps t rfuel wfuel rootDeps subset []
      = Except.ok S) :
    (∀ x, x ∈ S ↔ Reach t rfuel rootDeps subset x) ∧ S.Nodup := by
  have out := collectSubsetDeps_spec t rfuel wfuel rootDeps subset [] S hrun
  have hexp : ∀ x, x ∈ S → Expanded t rfuel S x := by
    intro x hx
    rcases out.expd x hx with h | h
    · cases h
    · exact h
  refine ⟨fun x => ⟨?_, ?_⟩, out.accnd List.nodup_nil⟩
  · intro hx
    rcases out.sound x hx with h | h
    · cases h
    · exact h
  · rintro ⟨pkg, e, hpkg, hlook, hrf⟩
    have he : e ∈ S := out.base pkg e hpkg hlook
    clear hpkg hlook
    induction hrf with
    | refl => exact he
    | tail f r reqs pkg2 rng hsub hreq hmem hres ih =>
        exact hexp f ih reqs pkg2 rng r hreq hmem hres

/-- Every reference stored in a nested `dependencies` map of a live entry
points at a live entry (true of every tree the builder produces). -/
def ValidTree (t : Tree) : Prop :=
  ∀ i, i < t.size → ∀ p : String × EntryId, p ∈ kids t i → p.2 < t.size

/-- The number of live entries not yet walked: the termination measure of
`walkDeps`. -/
def freshCount (t : Tree) (walked : List EntryId) : Nat :=
  ((List.range t.size).filter (fun i => decide (i ∉ walked))).length

theorem filter_length_mono {α : Type} (l : List α) (p q : α → Bool)
    (h : ∀ a, p a = true → q a = true) :
    (l.filter p).length ≤ (l.filter q).length := by
  induction l with
  | nil => exact Nat.le_refl 0
  | cons b bs ih =>
      rw [List.filter_cons, List.filter_cons]
      cases hp : p b with
      | true =>
          rw [h b hp]
          simpa using ih
      | false =>
          cases hq : q b with
          | true => simpa using Nat.le_succ_of_le ih
          | false => simpa using ih

theorem filter_length_strict {α : Type} (l : List α) (p q : α → Bool)
    (a : α) (ha : a ∈ l) (hqa : q a = true) (hpa : p a = false)
    (h : ∀ x, p x = true → q x = true) :
    (l.filter p).length < (l.filter q).length := by
  induction l with
  | nil => cases ha
  | cons b bs ih =>
      rw [List.filter_cons, List.filter_cons]
      rcases List.mem_cons.mp ha with h1 | h1
      · subst h1
        rw [hpa, hqa]
        simpa using Nat.lt_succ_of_le (filter_length_mono bs p q h)
      · cases hp : p b with
        | true =>
            rw [h b hp]
            simpa using ih h1
        | false =>
            cases hq : q b with
            | true => simpa using Nat.lt_succ_of_le (Nat.le_of_lt (ih h1))
            | false => simpa using ih h1

theorem freshCount_le (t : Tree) (w1 w2 : List EntryId)
    (h : ∀ x, x ∈ w1 → x ∈ w2) :
    freshCount t w2 ≤ freshCount t w1 := by
  apply filter_length_mono
  intro a ha
  simp only [decide_eq_true_eq] at ha ⊢
  intro hc
  exact ha (h a hc)

theorem freshCount_lt (t : Tree) (walked : List EntryId) (e : EntryId)
    (he : e < t.size) (hnw : e ∉ walked) :
    freshCount t (walked ++ [e]) < freshCount t walked := by
  apply filter_length_strict _ _ _ e (List.mem_range.mpr he)
  · simp [hnw]
  · simp
  · intro x hx
    simp only [decide_eq_true_eq] at hx ⊢
    intro hc
    exact hx (List.mem_append_left _ hc)

theorem freshCount_nil (t : Tree) : freshCount t [] = t.size := by
  rw [freshCount]
  rw [show (fun i => decide (i ∉ ([] : List EntryId)))
      = fun _ => true from by funext i; simp]
  rw [List.filter_true, List.length_range]

theorem resolveIfExists_mem_kids {t : Tree} {cur : EntryId} {dn : String}
    {e : EntryId} (h : resolveDependencyEntryIfExists t cur dn = some e) :
    (dn, e) ∈ kids t cur := by
  rw [resolveDependencyEntryIfExists] at h
  cases hd : (t.get cur).dependencies with
  | none => rw [hd] at h; cases h
  | some deps =>
      rw [hd] at h
      rw [kids, hd]
      exact alook_eq_some_mem h

theorem resolve_ok_lt {t : Tree} (hwf : OwnerWF t) (hvt : ValidTree t)
    (dn err : String) :
    ∀ (fuel : Nat) (cur r : EntryId), cur < t.size →
      resolveGo t dn err fuel (some cur) = Except.ok r → r < t.size
  | 0, cur, r => by intro _ h; cases h
  | fuel + 1, cur, r => by
      intro hcur h
      rw [resolveGo] at h
      cases hex : resolveDependencyEntryIfExists t cur dn with
      | some e =>
          rw [hex] at h
          injection h with h
          rw [← h]
          exact hvt cur hcur (dn, e) (resolveIfExists_mem_kids hex)
      | none =>
          rw [hex] at h
          cases how : (t.get cur).owner with
          | none =>
              rw [how] at h
              rw [show resolveGo t dn err fuel none = Except.error err from by
                cases fuel <;> rfl] at h
              cases h
          | some j =>
              rw [how] at h
              exact resolve_ok_lt hwf hvt dn err fuel j r
                (Nat.lt_trans (hwf cur j how) hcur) h

theorem resolve_total {t : Tree} (hwf : OwnerWF t) (dn err : String) :
    ∀ (fuel : Nat) (cur : EntryId), cur < fuel →
      (∃ r, resolveGo t dn err fuel (some cur) = Except.ok r) ∨
        resolveGo t dn err fuel (some cur) = Except.error err := by
  intro fuel
  induction fuel with
  | zero => intro cur h; cases h
  | succ f ih =>
      intro cur hcur
      rw [resolveGo]
      cases hex : resolveDependencyEntryIfExists t cur dn with
      | some e => exact Or.inl ⟨e, rfl⟩
      | none =>
          cases how : (t.get cur).owner with
          | none =>
              rw [show resolveGo t dn err f none = Except.error err from by
                cases f <;> rfl]
              exact Or.inr rfl
          | some j =>
              exact ih j (Nat.lt_of_lt_of_le (hwf cur j how)
                (Nat.lt_succ_iff.mp hcur))

theorem walkDepsList_cons_ok (t : Tree) (rfuel fuel : Nat) (en : String)
    (entry : EntryId) (pkg rng : String) (rest : List (String × String))
    (walked acc : List EntryId) (r : EntryId) (w1 a1 : List EntryId)
    (hr : resolveDependencyEntry t rfuel entry en pkg = Except.ok r)
    (hok : walkDepsGo t rfuel fuel pkg r walked (insertId r acc)
      = Except.ok (w1, a1)) :
    walkDepsList t rfuel (walkDepsGo t rfuel fuel) en entry
        ((pkg, rng) :: rest) walked acc
      = walkDepsList t rfuel (walkDepsGo t rfuel fuel) en entry rest
          w1 a1 := by
  rw [walkDepsList, hr]
  show (match walkDepsGo t rfuel fuel pkg r walked (insertId r acc) with
      | Except.error e => Except.error e
      | Except.ok (w, a) =>
          walkDepsList t rfuel (walkDepsGo t rfuel fuel) en entry rest w a)
      = _
  rw [hok]

theorem walkDepsList_cons_errGo (t : Tree) (rfuel fuel : Nat) (en : String)
    (entry : EntryId) (pkg rng : String) (rest : List (String × String))
    (walked acc : List EntryId) (r : EntryId) (e : String)
    (hr : resolveDependencyEntry t rfuel entry en pkg = Except.ok r)
    (hok : walkDepsGo t rfuel fuel pkg r walked (insertId r acc)
      = Except.error e) :
    walkDepsList t rfuel (walkDepsGo t rfuel fuel) en entry
        ((pkg, rng) :: rest) walked acc = Except.error e := by
  rw [walkDepsList, hr]
  show (match walkDepsGo t rfuel fuel pkg r walked (insertId r acc) with
      | Except.error e => Except.error e
      | Except.ok (w, a) =>
          walkDepsList t rfuel (walkDepsGo t rfuel fuel) en entry rest w a)
      = _
  rw [hok]

theorem walkDepsList_cons_errRes (t : Tree) (rfuel : Nat)
    (go : String → EntryId → List EntryId → List EntryId →
      Except String (List EntryId × List EntryId)) (en : String)
    (entry : EntryId) (pkg rng : String) (rest : List (String × String))
    (walked acc : List EntryId) (e : String)
    (hr : resolveDependencyEntry t rfuel entry en pkg = Except.error e) :
    walkDepsList t rfuel go en entry ((pkg, rng) :: rest) walked acc
      = Except.error e := by
  rw [walkDepsList, hr]

theorem walkDepsList_fuel (t : Tree) (rfuel fuel : Nat) (hwf : OwnerWF t)
    (hvt : ValidTree t) (hrf : t.size ≤ rfuel)
    (IH : ∀ (en : String) (entry : EntryId) (walked acc : List EntryId),
      entry < t.size → (∀ x, x ∈ walked → x < t.size) →
      freshCount t walked < fuel →
      (∃ w a, walkDepsGo t rfuel fuel en entry walked acc
          = Except.ok (w, a) ∧ (∀ x, x ∈ w → x < t.size) ∧
          (∃ d, w = walked ++ d)) ∨
        (∃ pn dn, walkDepsGo t rfuel fuel en entry walked acc
          = Except.error (resolveErrMsg pn dn))) :
    ∀ (reqs : List (String × String)) (en : String) (entry : EntryId)
      (walked acc : List EntryId),
      entry < t.size → (∀ x, x ∈ walked → x < t.size) →
      freshCount t walked < fuel →
      (∃ w a, walkDepsList t rfuel (walkDepsGo t rfuel fuel) en entry reqs
          walked acc = Except.ok (w, a) ∧ (∀ x, x ∈ w → x < t.size) ∧
          (∃ d, w = walked ++ d)) ∨
        (∃ pn dn, walkDepsList t rfuel (walkDepsGo t rfuel fuel) en entry
          reqs walked acc = Except.error (resolveErrMsg pn dn))
  | [], en, entry, walked, acc, hen, hwv, hfc =>
      Or.inl ⟨walked, acc, by rw [walkDepsList], hwv,
        ⟨[], by rw [List.append_nil]⟩⟩
  | (pkg, rng) :: rest, en, entry, walked, acc, hen, hwv, hfc => by
      rcases resolve_total hwf pkg (resolveErrMsg en pkg) rfuel entry
          (Nat.lt_of_lt_of_le hen hrf) with ⟨r, hr⟩ | hr
      · have hr2 : resolveDependencyEntry t rfuel entry en pkg
            = Except.ok r := hr
        have hrlt : r < t.size := resolve_ok_lt hwf hvt pkg
          (resolveErrMsg en pkg) rfuel entry r hen hr
        rcases IH pkg r walked (insertId r acc) hrlt hwv hfc with
          ⟨w1, a1, hok, hw1v, hw1p⟩ | ⟨pn, dn, herr⟩
        · rw [walkDepsList_cons_ok t rfuel fuel en entry pkg rng rest
            walked acc r w1 a1 hr2 hok]
          have hfc1 : freshCount t w1 < fuel :=
            Nat.lt_of_le_of_lt
              (freshCount_le t walked w1
                (fun x hx => mem_of_prefixExt hw1p hx))
              hfc
          rcases walkDepsList_fuel t rfuel fuel hwf hvt hrf IH rest en entry
              w1 a1 hen hw1v hfc1 with ⟨w2, a2, hok2, hv2, hp2⟩ | herr2
          · exact Or.inl ⟨w2, a2, hok2, hv2, prefixExt_trans hw1p hp2⟩
          · obtain ⟨pn, dn, herr2⟩ := herr2
            exact Or.inr ⟨pn, dn, herr2⟩
        · rw [walkDepsList_cons_errGo t rfuel fuel en entry pkg rng rest
            walked acc r (resolveErrMsg pn dn) hr2 herr]
          exact Or.inr ⟨pn, dn, rfl⟩
      · rw [walkDepsList_cons_errRes t rfuel (walkDepsGo t rfuel fuel)
          en entry pkg rng rest walked acc (resolveErrMsg en pkg) hr]
        exact Or.inr ⟨en, pkg, rfl⟩

theorem walkDepsGo_fuel (t : Tree) (rfuel : Nat) (hwf : OwnerWF t)
    (hvt : ValidTree t) (hrf : t.size ≤ rfuel) :
    ∀ (fuel : Nat) (en : String) (entry : EntryId)
      (walked acc : List EntryId),
      entry < t.size → (∀ x, x ∈ walked → x < t.size) →
      freshCount t walked < fuel →
      (∃ w a, walkDepsGo t rfuel fuel en entry walked acc
          = Except.ok (w, a) ∧ (∀ x, x ∈ w → x < t.size) ∧
          (∃ d, w = walked ++ d)) ∨
        (∃ pn dn, walkDepsGo t rfuel fuel en entry walked acc
          = Except.error (resolveErrMsg pn dn))
  | 0, en, entry, walked, acc, hen, hwv, hfc => absurd hfc (Nat.not_lt_zero _)
  | fuel + 1, en, entry, walked, acc, hen, hwv, hfc => by
      rw [walkDepsGo]
      by_cases hw : entry ∈ walked
      · rw [if_pos hw]
        exact Or.inl ⟨walked, acc, rfl, hwv, ⟨[], by rw [List.append_nil]⟩⟩
      · rw [if_neg hw]
        cases hreq : (t.get entry).requires with
        | none =>
            refine Or.inl ⟨walked ++ [entry], acc, rfl, ?_,
              ⟨[entry], rfl⟩⟩
            intro x hx
            rcases List.mem_append.mp hx with h1 | h1
            · exact hwv x h1
            · rw [List.mem_singleton] at h1
              subst h1
              exact hen
        | some reqs =>
            have hwv2 : ∀ x, x ∈ walked ++ [entry] → x < t.size := by
              intro x hx
              rcases List.mem_append.mp hx with h1 | h1
              · exact hwv x h1
              · rw [List.mem_singleton] at h1
                subst h1
                exact hen
            have hfc2 : freshCount t (walked ++ [entry]) < fuel :=
              Nat.lt_of_lt_of_le (freshCount_lt t walked entry hen hw)
                (Nat.lt_succ_iff.mp hfc)
            rcases walkDepsList_fuel t rfuel fuel hwf hvt hrf
                (walkDepsGo_fuel t rfuel hwf hvt hrf fuel) reqs en entry
                (walked ++ [entry]) acc hen hwv2 hfc2 with
              ⟨w1, a1, hok, hv1, hp1⟩ | ⟨pn, dn, herr⟩
            · refine Or.inl ⟨w1, a1, hok, hv1, ?_⟩
              obtain ⟨d, hd⟩ := hp1
              exact ⟨[entry] ++ d, by rw [hd, List.append_assoc]⟩
            · exact Or.inr ⟨pn, dn, herr⟩

theorem collect_cons_none (t : Tree) (rfuel wfuel : Nat) (rootDeps : Deps)
    (pkg : String) (rest : List String) (acc : List EntryId)
    (hl : alook pkg rootDeps = none) :
    collectSubsetDeps t rfuel wfuel rootDeps (pkg :: rest) acc
      = collectSubsetDeps t rfuel wfuel rootDeps rest acc := by
  rw [collectSubsetDeps, hl]

theorem collect_cons_ok (t : Tree) (rfuel wfuel : Nat) (rootDeps : Deps)
    (pkg : String) (rest : List String) (acc : List EntryId)
    (entry : EntryId) (w1 a1 : List EntryId)
    (hl : alook pkg rootDeps = some entry)
    (hok : walkDepsGo t rfuel wfuel pkg entry [] (insertId entry acc)
      = Except.ok (w1, a1)) :
    collectSubsetDeps t rfuel wfuel rootDeps (pkg :: rest) acc
      = collectSubsetDeps t rfuel wfuel rootDeps rest a1 := by
  rw [collectSubsetDeps, hl]
  show (match walkDepsGo t rfuel wfuel pkg entry [] (insertId entry acc) with
      | Except.error e => Except.error e
      | Except.ok (w, a) =>
          collectSubsetDeps t rfuel wfuel rootDeps rest a) = _
  rw [hok]

theorem collect_cons_err (t : Tree) (rfuel wfuel : Nat) (rootDeps : Deps)
    (pkg : String) (rest : List String) (acc : List EntryId)
    (entry : EntryId) (e : String)
    (hl : alook pkg rootDeps = some entry)
    (herr : walkDepsGo t rfuel wfuel pkg entry [] (insertId entry acc)
      = Except.error e) :
    collectSubsetDeps t rfuel wfuel rootDeps (pkg :: rest) acc
      = Except.error e := by
  rw [collectSubsetDeps, hl]
  show (match walkDepsGo t rfuel wfuel pkg entry [] (insertId entry acc) with
      | Except.error e => Except.error e
      | Except.ok (w, a) =>
          collectSubsetDeps t rfuel wfuel rootDeps rest a) = _
  rw [herr]

theorem collectSubsetDeps_fuel (t : Tree) (rfuel wfuel : Nat)
    (hwf : OwnerWF t) (hvt : ValidTree t) (hrf : t.size ≤ rfuel)
    (hwfl : t.size < wfuel) (rootDeps : Deps)
    (hroot : ∀ p : String × EntryId, p ∈ rootDeps → p.2 < t.size) :
    ∀ (subset : List String) (acc : List EntryId),
      (∃ S, collectSubsetDeps t rfuel wfuel rootDeps subset acc
          = Except.ok S) ∨
        (∃ pn dn, collectSubsetDeps t rfuel wfuel rootDeps subset acc
          = Except.error (resolveErrMsg pn dn))
  | [], acc => Or.inl ⟨acc, by rw [collectSubsetDeps]⟩
  | pkg :: rest, acc => by
      cases hl : alook pkg rootDeps with
      | none =>
          rw [collect_cons_none t rfuel wfuel rootDeps pkg rest acc hl]
          exact collectSubsetDeps_fuel t rfuel wfuel hwf hvt hrf hwfl
            rootDeps hroot rest acc
      | some entry =>
          have hent : entry < t.size :=
            hroot (pkg, entry) (alook_eq_some_mem hl)
          have hfc : freshCount t [] < wfuel := by
            rw [freshCount_nil]
            exact hwfl
          rcases walkDepsGo_fuel t rfuel hwf hvt hrf wfuel pkg entry []
              (insertId entry acc) hent (fun x hx => by cases hx) hfc with
            ⟨w1, a1, hok, _, _⟩ | ⟨pn, dn, herr⟩
          · rw [collect_cons_ok t rfuel wfuel rootDeps pkg rest acc entry
              w1 a1 hl hok]
            exact collectSubsetDeps_fuel t rfuel wfuel hwf hvt hrf hwfl
              rootDeps hroot rest a1
          · rw [collect_cons_err t rfuel wfuel rootDeps pkg rest acc entry
              (resolveErrMsg pn dn) hl herr]
            exact Or.inr ⟨pn, dn, rfl⟩

/-- Claim C5: on every tree with well-founded owner chains and live map
references — in particular on trees whose logical `requires` graph contains
cycles — the logical reachability expansion with fuel beyond the entry
count terminates without exhausting its fuel (it completes, or fails only
with the resolver's internal-consistency error); on completion the
collected `subsetDeps` set is duplicate-free and holds each logically
reachable entry exactly once; and the per-run walked set guards expansion:
re-walking an already-walked entry returns immediately with nothing
changed. -/
theorem collectLogicalReachable_correct (t : Tree) (rfuel wfuel : Nat)
    (rootDeps : Deps) (subset : List String)
    (hwf : OwnerWF t) (hvt : ValidTree t)
    (hroot : ∀ p : String × EntryId, p ∈ rootDeps → p.2 < t.size)
    (hrf : t.size ≤ rfuel) (hwfl : t.size < wfuel) :
    ((∃ S, collectSubsetDeps t rfuel wfuel rootDeps subset []
        = Except.ok S) ∨
      (∃ pn dn, collectSubsetDeps t rfuel wfuel rootDeps subset []
        = Except.error (resolveErrMsg pn dn))) ∧
    (∀ S, collectSubsetDeps t rfuel wfuel rootDeps subset [] = Except.ok S →
      S.Nodup ∧ (∀ x, x ∈ S ↔ Reach t rfuel rootDeps subset x)) ∧
    (∀ (en : String) (e : EntryId) (w a : List EntryId), e ∈ w →
      walkDepsGo t rfuel wfuel en e w a = Except.ok (w, a)) := by
  refine ⟨collectSubsetDeps_fuel t rfuel wfuel hwf hvt hrf hwfl rootDeps
    hroot subset [], fun S hS => ?_, ?_⟩
  · obtain ⟨hiff, hnd⟩ :=
      collectSubsetDeps_reach t rfuel wfuel rootDeps subset S hS
    exact ⟨hnd, hiff⟩
  · intro en e w a hmem
    obtain ⟨k, rfl⟩ : ∃ k, wfuel = k + 1 :=
      ⟨wfuel - 1, by
        cases wfuel with
        | zero => cases hwfl
        | succ m => rfl⟩
    rw [walkDepsGo, if_pos hmem]

/-- The two-entry logical cycle of the spec's cycle-tolerance scenario:
`a` (entry 1) requires `b`, `b` (entry 2) requires `a`, both hoisted to the
root map and resolving through the root entry 0. -/
def cycleTree : Tree :=
  ⟨[{ dependencies := some [("a", 1), ("b", 2)] },
    { requires := some [("b", "^1")], owner := some 0 },
    { requires := some [("a", "^1")], owner := some 0 }]⟩

theorem cycleTree_ownerWF : OwnerWF cycleTree := by
  intro i j h
  match i with
  | 0 =>
      rw [show (cycleTree.get 0).owner = none from rfl] at h
      cases h
  | 1 =>
      rw [show (cycleTree.get 1).owner = some 0 from rfl] at h
      injection h with h
      rw [← h]
      exact Nat.zero_lt_one
  | 2 =>
      rw [show (cycleTree.get 2).owner = some 0 from rfl] at h
      injection h with h
      rw [← h]
      exact Nat.zero_lt_two
  | n + 3 =>
      rw [show (cycleTree.get (n + 3)).owner = none from rfl] at h
      cases h

theorem cycleTree_valid : ValidTree cycleTree := by
  intro i hi p hp
  match i with
  | 0 =>
      rw [show kids cycleTree 0 = [("a", 1), ("b", 2)] from rfl] at hp
      rcases List.mem_cons.mp hp with h1 | h1
      · rw [h1]; decide
      · rcases List.mem_cons.mp h1 with h2 | h2
        · rw [h2]; decide
        · cases h2
  | 1 =>
      rw [show kids cycleTree 1 = [] from rfl] at hp
      cases hp
  | 2 =>
      rw [show kids cycleTree 2 = [] from rfl] at hp
      cases hp
  | n + 3 => exact absurd hi (Nat.not_lt.mpr (Nat.le_add_left 3 n))

/-- Witness for `collectLogicalReachable_correct`: on the mutual cycle
`a requires b`, `b requires a`, the expansion terminates with `subsetDeps`
= `[1, 2]` — both entries, each exactly once — and both entries are
characterized as logically reachable from `a` alone. -/
theorem collectLogicalReachable_correct_witness :
    collectSubsetDeps cycleTree 3 4 [("a", 1), ("b", 2)] ["a"] []
      = Except.ok [1, 2] ∧
    ([1, 2] : List EntryId).Nodup ∧
    (1 ∈ ([1, 2] : List EntryId) ↔
      Reach cycleTree 3 [("a", 1), ("b", 2)] ["a"] 1) ∧
    (2 ∈ ([1, 2] : List EntryId) ↔
      Reach cycleTree 3 [("a", 1), ("b", 2)] ["a"] 2) :=
  ⟨rfl,
    ((collectLogicalReachable_correct cycleTree 3 4 [("a", 1), ("b", 2)]
        ["a"] cycleTree_ownerWF cycleTree_valid
        (by
          intro p hp
          rcases List.mem_cons.mp hp with h1 | h1
          · rw [h1]; decide
          · rcases List.mem_cons.mp h1 with h2 | h2
            · rw [h2]; decide
            · cases h2)
        (by decide) (by decide)).2.1 [1, 2] rfl).1,
    ((collectLogicalReachable_correct cycleTree 3 4 [("a", 1), ("b", 2)]
        ["a"] cycleTree_ownerWF cycleTree_valid
        (by
          intro p hp
          rcases List.mem_cons.mp hp with h1 | h1
          · rw [h1]; decide
          · rcases List.mem_cons.mp h1 with h2 | h2
            · rw [h2]; decide
            · cases h2)
        (by decide) (by decide)).2.1 [1, 2] rfl).2 1,
    ((collectLogicalReachable_correct cycleTree 3 4 [("a", 1), ("b", 2)]
        ["a"] cycleTree_ownerWF cycleTree_valid
        (by
          intro p hp
          rcases List.mem_cons.mp hp with h1 | h1
          · rw [h1]; decide
          · rcases List.mem_cons.mp h1 with h2 | h2
            · rw [h2]; decide
            · cases h2)
        (by decide) (by decide)).2.1 [1, 2] rfl).2 2⟩

/-- Two trees with the same resolution skeleton: the marking passes change
only the `dev`/`optional` flags, and every walker reads only the
`dependencies`, `requires` and `owner` fields. -/
def SameSkel (t t2 : Tree) : Prop :=
  ∀ k, (t2.get k).dependencies = (t.get k).dependencies ∧
    (t2.get k).requires = (t.get k).requires ∧
    (t2.get k).owner = (t.get k).owner

theorem resolveIfExists_congr {t t2 : Tree} (hs : SameSkel t t2)
    (p : EntryId) (n : String) :
    resolveDependencyEntryIfExists t2 p n
      = resolveDependencyEntryIfExists t p n := by
  rw [resolveDependencyEntryIfExists, resolveDependencyEntryIfExists,
    (hs p).1]

theorem resolveGo_congr {t t2 : Tree} (hs : SameSkel t t2)
    (dn err : String) :
    ∀ (fuel : Nat) (o : Option EntryId),
      resolveGo t2 dn err fuel o = resolveGo t dn err fuel o
  | fuel, none => by cases fuel <;> rfl
  | 0, some cur => rfl
  | fuel + 1, some cur => by
      rw [resolveGo, resolveGo, resolveIfExists_congr hs cur dn,
        (hs cur).2.2]
      cases resolveDependencyEntryIfExists t cur dn with
      | some e => rfl
      | none =>
          exact resolveGo_congr hs dn err fuel ((t.get cur).owner)

theorem walkDepsList_congr {t t2 : Tree} (hs : SameSkel t t2) (rfuel : Nat)
    (fuel : Nat)
    (IH : ∀ (en : String) (e : EntryId) (w a : List EntryId),
      walkDepsGo t2 rfuel fuel en e w a = walkDepsGo t rfuel fuel en e w a) :
    ∀ (reqs : List (String × String)) (en : String) (e : EntryId)
      (w a : List EntryId),
      walkDepsList t2 rfuel (walkDepsGo t2 rfuel fuel) en e reqs w a
        = walkDepsList t rfuel (walkDepsGo t rfuel fuel) en e reqs w a
  | [], en, e, w, a => rfl
  | (pkg, rng) :: rest, en, e, w, a => by
      rw [walkDepsList, walkDepsList]
      rw [show resolveDependencyEntry t2 rfuel e en pkg
          = resolveDependencyEntry t rfuel e en pkg from
        resolveGo_congr hs pkg (resolveErrMsg en pkg) rfuel (some e)]
      cases resolveDependencyEntry t rfuel e en pkg with
      | error e2 => rfl
      | ok r =>
          show (match walkDepsGo t2 rfuel fuel pkg r w (insertId r a) with
              | Except.error e2 => Except.error e2
              | Except.ok (w2, a2) =>
                  walkDepsList t2 rfuel (walkDepsGo t2 rfuel fuel) en e
                    rest w2 a2)
            = (match walkDepsGo t rfuel fuel pkg r w (insertId r a) with
              | Except.error e2 => Except.error e2
              | Except.ok (w2, a2) =>
                  walkDepsList t rfuel (walkDepsGo t rfuel fuel) en e
                    rest w2 a2)
          rw [IH pkg r w (insertId r a)]
          cases walkDepsGo t rfuel fuel pkg r w (insertId r a) with
          | error e2 => rfl
          | ok p =>
              obtain ⟨w2, a2⟩ := p
              exact walkDepsList_congr hs rfuel fuel IH rest en e w2 a2

theorem walkDepsGo_congr {t t2 : Tree} (hs : SameSkel t t2) (rfuel : Nat) :
    ∀ (fuel : Nat) (en : String) (e : EntryId) (w a : List EntryId),
      walkDepsGo t2 rfuel fuel en e w a = walkDepsGo t rfuel fuel en e w a
  | 0, en, e, w, a => rfl
  | fuel + 1, en, e, w, a => by
      rw [walkDepsGo, walkDepsGo]
      by_cases hw : e ∈ w
      · rw [if_pos hw, if_pos hw]
      · rw [if_neg hw, if_neg hw, (hs e).2.1]
        cases (t.get e).requires with
        | none => rfl
        | some reqs =>
            exact walkDepsList_congr hs rfuel fuel
              (walkDepsGo_congr hs rfuel fuel) reqs en e (w ++ [e]) a

theorem collectSubsetDeps_congr {t t2 : Tree} (hs : SameSkel t t2)
    (rfuel wfuel : Nat) (rootDeps : Deps) :
    ∀ (subset : List String) (acc : List EntryId),
      collectSubsetDeps t2 rfuel wfuel rootDeps subset acc
        = collectSubsetDeps t rfuel wfuel rootDeps subset acc
  | [], acc => rfl
  | pkg :: rest, acc => by
      rw [collectSubsetDeps, collectSubsetDeps]
      cases alook pkg rootDeps with
      | none => exact collectSubsetDeps_congr hs rfuel wfuel rootDeps rest acc
      | some entry =>
          show (match walkDepsGo t2 rfuel wfuel pkg entry []
                (insertId entry acc) with
              | Except.error e => Except.error e
              | Except.ok (w, a) =>
                  collectSubsetDeps t2 rfuel wfuel rootDeps rest a)
            = (match walkDepsGo t rfuel wfuel pkg entry []
                (insertId entry acc) with
              | Except.error e => Except.error e
              | Except.ok (w, a) =>
                  collectSubsetDeps t rfuel wfuel rootDeps rest a)
          rw [walkDepsGo_congr hs rfuel wfuel pkg entry []
            (insertId entry acc)]
          cases walkDepsGo t rfuel wfuel pkg entry [] (insertId entry acc)
            with
          | error e => rfl
          | ok p =>
              obtain ⟨w, a⟩ := p
              exact collectSubsetDeps_congr hs rfuel wfuel rootDeps rest a

/-! ### The marking step of `walkNonSubsetDeps` -/

theorem markStep_get (S : List EntryId) (mark : Entry → Entry) :
    ∀ (s : Tree) (i k : EntryId),
      (if i ∈ S then s else s.modifyE i mark).get k
        = if k = i ∧ i < s.size then
            (if i ∈ S then s.get i else mark (s.get i))
          else s.get k := by
  intro s i k
  by_cases hi : i ∈ S
  · rw [if_pos hi, if_pos hi]
    by_cases hc : k = i ∧ i < s.size
    · rw [if_pos hc, hc.1]
    · rw [if_neg hc]
  · rw [if_neg hi, if_neg hi]
    exact Tree.get_modifyE s i mark k

theorem markStep_size (S : List EntryId) (mark : Entry → Entry)
    (s : Tree) (i : EntryId) :
    (if i ∈ S then s else s.modifyE i mark).size = s.size := by
  by_cases hi : i ∈ S
  · rw [if_pos hi]
  · rw [if_neg hi]
    exact Tree.size_modifyE s i mark

/-- Extract the two stages of a successful `walkNonSubsetDeps` run. -/
theorem walkNonSubsetDeps_inv (t : Tree) (rfuel wfuel efuel : Nat)
    (root : EntryId) (subset : List String) (mark : Entry → Entry)
    (rds : Deps) (t2 : Tree)
    (hdeps : (t.get root).dependencies = some rds)
    (hrun : walkNonSubsetDeps t rfuel wfuel efuel root subset mark
      = Except.ok t2) :
    ∃ S, collectSubsetDeps t rfuel wfuel rds subset [] = Except.ok S ∧
      walkEntriesT (fun t3 i => if i ∈ S then t3 else t3.modifyE i mark)
        efuel t (some rds) = some t2 := by
  rw [walkNonSubsetDeps, hdeps] at hrun
  have hrun1 : (match collectSubsetDeps t rfuel wfuel rds subset [] with
      | Except.error e => Except.error e
      | Except.ok S =>
          match walkEntriesT
              (fun t3 i => if i ∈ S then t3 else t3.modifyE i mark)
              efuel t (some rds) with
          | none => Except.error walkEntriesFuelMsg
          | some t3 => Except.ok t3) = Except.ok t2 := hrun
  clear hrun
  cases hcol : collectSubsetDeps t rfuel wfuel rds subset [] with
  | error e =>
      rw [hcol] at hrun1
      cases hrun1
  | ok S =>
      rw [hcol] at hrun1
      have hrun2 : (match walkEntriesT
            (fun t3 i => if i ∈ S then t3 else t3.modifyE i mark)
            efuel t (some rds) with
          | none => Except.error walkEntriesFuelMsg
          | some t3 => Except.ok t3) = Except.ok t2 := hrun1
      clear hrun1
      cases hwalk : walkEntriesT
          (fun t3 i => if i ∈ S then t3 else t3.modifyE i mark)
          efuel t (some rds) with
      | none =>
          rw [hwalk] at hrun2
          cases hrun2
      | some t3 =>
          rw [hwalk] at hrun2
          injection hrun2 with h
          subst h
          exact ⟨S, rfl, hwalk⟩

/-- Claim C1: on the built-and-cleaned tree (`t`, flag-free, root map
`rds`), the dev pass flags with `dev = true` exactly the entries of the tree
not logically reachable from the root manifest's dependencies + optional +
peer requirement names, the optional pass flags with `optional = true`
exactly those not logically reachable from the dependencies + dev + peer
names, and an entry in neither reachable set ends up with both flags set. -/
theorem markPasses_characterization (env : Env) (startDir : Dir)
    (t t1 t2 : Tree) (root : EntryId) (rfuel wfuel efuel : Nat) (rds : Deps)
    (hdeps : (t.get root).dependencies = some rds)
    (hflags : ∀ i, (t.get i).dev = false ∧ (t.get i).optional = false)
    (hval : ∀ i, InTree t rds i → i < t.size)
    (h1 : markDevDeps env startDir t rfuel wfuel efuel root = Except.ok t1)
    (h2 : markOptionalDeps env startDir t1 rfuel wfuel efuel root
      = Except.ok t2) :
    ∀ i, InTree t rds i →
      (((t2.get i).dev = true) ↔
        ¬ Reach t rfuel rds (nonDevNames (env.readManifest startDir)) i) ∧
      (((t2.get i).optional = true) ↔
        ¬ Reach t rfuel rds
          (nonOptionalNames (env.readManifest startDir)) i) ∧
      ((¬ Reach t rfuel rds (nonDevNames (env.readManifest startDir)) i ∧
          ¬ Reach t rfuel rds
            (nonOptionalNames (env.readManifest startDir)) i) →
        (t2.get i).dev = true ∧ (t2.get i).optional = true) := by
  have h1x : walkNonSubsetDeps t rfuel wfuel efuel root
      (nonDevNames (env.readManifest startDir))
      (fun e => { e with dev := true }) = Except.ok t1 := h1
  obtain ⟨S1, hcol1, hwalk1⟩ := walkNonSubsetDeps_inv t rfuel wfuel efuel
    root (nonDevNames (env.readManifest startDir))
    (fun e => { e with dev := true }) rds t1 hdeps h1x
  have hwalk1x : walkEntriesG (fun s => s)
      (fun t3 i => if i ∈ S1 then t3
        else t3.modifyE i (fun e => { e with dev := true }))
      efuel t (some rds) = some t1 := hwalk1
  have char1 := walkMark_char
    (fun t3 i => if i ∈ S1 then t3
      else t3.modifyE i (fun e => { e with dev := true }))
    (fun i e => if i ∈ S1 then e else { e with dev := true })
    (markStep_get S1 (fun e => { e with dev := true }))
    (markStep_size S1 (fun e => { e with dev := true }))
    (fun i e => by by_cases hi : i ∈ S1 <;> simp [hi])
    (fun i e => by by_cases hi : i ∈ S1 <;> simp [hi])
    efuel t (some rds) t1 hwalk1x hval
  obtain ⟨hsize1, charf1⟩ := char1
  have hg1 : ∀ k, t1.get k = t.get k ∨
      t1.get k = { t.get k with dev := true } := by
    intro k
    by_cases hc : InTree t rds k
    · have hk := (charf1 k).1 hc
      simp only [] at hk
      by_cases hs : k ∈ S1
      · rw [hk, if_pos hs]
        exact Or.inl rfl
      · rw [hk, if_neg hs]
        exact Or.inr rfl
    · exact Or.inl ((charf1 k).2 hc)
  have hskel1 : SameSkel t t1 := by
    intro k
    rcases hg1 k with h | h <;> rw [h] <;> exact ⟨rfl, rfl, rfl⟩
  have hopt1 : ∀ k, (t1.get k).optional = (t.get k).optional := by
    intro k
    rcases hg1 k with h | h <;> rw [h]
  have hkids1 : ∀ k, kids t k = kids t1 k := by
    intro k
    rw [kids, kids, (hskel1 k).1]
  obtain ⟨hiff1, hnd1⟩ := collectSubsetDeps_reach t rfuel wfuel rds
    (nonDevNames (env.readManifest startDir)) S1 hcol1
  have h2x : walkNonSubsetDeps t1 rfuel wfuel efuel root
      (nonOptionalNames (env.readManifest startDir))
      (fun e => { e with optional := true }) = Except.ok t2 := h2
  have hdeps1 : (t1.get root).dependencies = some rds := by
    rw [(hskel1 root).1]
    exact hdeps
  obtain ⟨S2, hcol2, hwalk2⟩ := walkNonSubsetDeps_inv t1 rfuel wfuel efuel
    root (nonOptionalNames (env.readManifest startDir))
    (fun e => { e with optional := true }) rds t2 hdeps1 h2x
  rw [collectSubsetDeps_congr hskel1 rfuel wfuel rds
    (nonOptionalNames (env.readManifest startDir)) []] at hcol2
  obtain ⟨hiff2, hnd2⟩ := collectSubsetDeps_reach t rfuel wfuel rds
    (nonOptionalNames (env.readManifest startDir)) S2 hcol2
  have hval1 : ∀ i, InTree t1 rds i → i < t1.size := by
    intro i hi
    rw [hsize1]
    exact hval i (InTree_congr (fun k => (hkids1 k).symm) hi)
  have hwalk2x : walkEntriesG (fun s => s)
      (fun t3 i => if i ∈ S2 then t3
        else t3.modifyE i (fun e => { e with optional := true }))
      efuel t1 (some rds) = some t2 := hwalk2
  have char2 := walkMark_char
    (fun t3 i => if i ∈ S2 then t3
      else t3.modifyE i (fun e => { e with optional := true }))
    (fun i e => if i ∈ S2 then e else { e with optional := true })
    (markStep_get S2 (fun e => { e with optional := true }))
    (markStep_size S2 (fun e => { e with optional := true }))
    (fun i e => by by_cases hi : i ∈ S2 <;> simp [hi])
    (fun i e => by by_cases hi : i ∈ S2 <;> simp [hi])
    efuel t1 (some rds) t2 hwalk2x hval1
  obtain ⟨hsize2, charf2⟩ := char2
  intro i hi
  have hi1 : InTree t1 rds i := InTree_congr hkids1 hi
  have hdev1 : (t1.get i).dev = (if i ∈ S1 then false else true) := by
    have hk := (charf1 i).1 hi
    simp only [] at hk
    by_cases hs : i ∈ S1
    · rw [hk, if_pos hs, if_pos hs]
      exact (hflags i).1
    · rw [hk, if_neg hs, if_neg hs]
  have hopt1i : (t1.get i).optional = false := by
    rw [hopt1 i]
    exact (hflags i).2
  have hdev2 : (t2.get i).dev = (t1.get i).dev := by
    have hk := (charf2 i).1 hi1
    simp only [] at hk
    by_cases hs : i ∈ S2
    · rw [hk, if_pos hs]
    · rw [hk, if_neg hs]
  have hopt2 : (t2.get i).optional = (if i ∈ S2 then false else true) := by
    have hk := (charf2 i).1 hi1
    simp only [] at hk
    by_cases hs : i ∈ S2
    · rw [hk, if_pos hs, if_pos hs]
      exact hopt1i
    · rw [hk, if_neg hs, if_neg hs]
  have hdevIff : (t2.get i).dev = true ↔
      ¬ Reach t rfuel rds (nonDevNames (env.readManifest startDir)) i := by
    rw [hdev2, hdev1]
    by_cases hs : i ∈ S1
    · rw [if_pos hs]
      simp only [Bool.false_eq_true, false_iff]
      intro hc
      exact hc ((hiff1 i).mp hs)
    · rw [if_neg hs]
      simp only [true_iff]
      intro hc
      exact hs ((hiff1 i).mpr hc)
  have hoptIff : (t2.get i).optional = true ↔
      ¬ Reach t rfuel rds
        (nonOptionalNames (env.readManifest startDir)) i := by
    rw [hopt2]
    by_cases hs : i ∈ S2
    · rw [if_pos hs]
      simp only [Bool.false_eq_true, false_iff]
      intro hc
      exact hc ((hiff2 i).mp hs)
    · rw [if_neg hs]
      simp only [true_iff]
      intro hc
      exact hs ((hiff2 i).mpr hc)
  exact ⟨hdevIff, hoptIff,
    fun hc => ⟨hdevIff.mpr hc.1, hoptIff.mpr hc.2⟩⟩

/-- The marking witness scenario (the spec's dev/optional scenario): root
requires `a` normally and `b` as a dev requirement; `b` requires `c`. -/
def markWitnessTree : Tree :=
  ⟨[{ dependencies := some [("a", 1), ("b", 2), ("c", 3)] },
    { owner := some 0 },
    { requires := some [("c", "^3")], owner := some 0 },
    { owner := some 0 }]⟩

/-- `markWitnessTree` after the two marking passes: `b` and `c` are
`dev = true`, nothing is `optional`. -/
def markWitnessTree1 : Tree :=
  ⟨[{ dependencies := some [("a", 1), ("b", 2), ("c", 3)] },
    { owner := some 0 },
    { requires := some [("c", "^3")], owner := some 0, dev := true },
    { owner := some 0, dev := true }]⟩

/-- The root manifest of the marking witness. -/
def markEnv : Env where
  readManifest d :=
    if d = ["proj"] then
      { name := "proj", version := "1.0.0",
        dependencies := [("a", "^1")], devDependencies := [("b", "^2")] }
    else {}
  manifestExists _ := true
  locate _ _ := none

theorem markWitnessTree_flags :
    ∀ i, ((markWitnessTree.get i).dev = false) ∧
      ((markWitnessTree.get i).optional = false) := by
  intro i
  match i with
  | 0 => exact ⟨rfl, rfl⟩
  | 1 => exact ⟨rfl, rfl⟩
  | 2 => exact ⟨rfl, rfl⟩
  | 3 => exact ⟨rfl, rfl⟩
  | n + 4 => exact ⟨rfl, rfl⟩

theorem markWitnessTree_val :
    ∀ i, InTree markWitnessTree [("a", 1), ("b", 2), ("c", 3)] i →
      i < markWitnessTree.size := by
  intro i h
  induction h with
  | here n i hm =>
      rcases List.mem_cons.mp hm with h1 | h1
      · rw [Prod.mk.injEq] at h1
        rw [h1.2]
        decide
      · rcases List.mem_cons.mp h1 with h2 | h2
        · rw [Prod.mk.injEq] at h2
          rw [h2.2]
          decide
        · rcases List.mem_cons.mp h2 with h3 | h3
          · rw [Prod.mk.injEq] at h3
            rw [h3.2]
            decide
          · cases h3
  | nest n j i hj hm ih =>
      have hj4 : j = 0 ∨ j = 1 ∨ j = 2 ∨ j = 3 := by
        match j, ih with
        | 0, _ => exact Or.inl rfl
        | 1, _ => exact Or.inr (Or.inl rfl)
        | 2, _ => exact Or.inr (Or.inr (Or.inl rfl))
        | 3, _ => exact Or.inr (Or.inr (Or.inr rfl))
        | m + 4, ih =>
            exact absurd ih (Nat.not_lt.mpr (Nat.le_add_left 4 m))
      rcases hj4 with h0 | h1 | h2 | h3
      · subst h0
        rw [show kids markWitnessTree 0 = [("a", 1), ("b", 2), ("c", 3)]
          from rfl] at hm
        rcases List.mem_cons.mp hm with hx | hx
        · rw [Prod.mk.injEq] at hx
          rw [hx.2]
          decide
        · rcases List.mem_cons.mp hx with hy | hy
          · rw [Prod.mk.injEq] at hy
            rw [hy.2]
            decide
          · rcases List.mem_cons.mp hy with hz | hz
            · rw [Prod.mk.injEq] at hz
              rw [hz.2]
              decide
            · cases hz
      · subst h1
        rw [show kids markWitnessTree 1 = [] from rfl] at hm
        cases hm
      · subst h2
        rw [show kids markWitnessTree 2 = [] from rfl] at hm
        cases hm
      · subst h3
        rw [show kids markWitnessTree 3 = [] from rfl] at hm
        cases hm

/-- Witness for `markPasses_characterization`: on the scenario "root
requires `a` normally and `b` dev-only, `b` requires `c`", the two passes
flag `b` and `c` (and only them) with `dev = true` and nothing with
`optional = true`; instantiated at entry `c`. -/
theorem markPasses_characterization_witness :
    markDevDeps markEnv ["proj"] markWitnessTree 4 5 3 0
      = Except.ok markWitnessTree1 ∧
    markOptionalDeps markEnv ["proj"] markWitnessTree1 4 5 3 0
      = Except.ok markWitnessTree1 ∧
    (((markWitnessTree1.get 3).dev = true) ↔
      ¬ Reach markWitnessTree 4 [("a", 1), ("b", 2), ("c", 3)]
        (nonDevNames (markEnv.readManifest ["proj"])) 3) ∧
    (((markWitnessTree1.get 3).optional = true) ↔
      ¬ Reach markWitnessTree 4 [("a", 1), ("b", 2), ("c", 3)]
        (nonOptionalNames (markEnv.readManifest ["proj"])) 3) :=
  ⟨rfl, rfl,
    (markPasses_characterization markEnv ["proj"] markWitnessTree
        markWitnessTree1 markWitnessTree1 0 4 5 3
        [("a", 1), ("b", 2), ("c", 3)] rfl markWitnessTree_flags
        markWitnessTree_val rfl rfl 3
        (InTree.here "c" 3 (by decide))).1,
    (markPasses_characterization markEnv ["proj"] markWitnessTree
        markWitnessTree1 markWitnessTree1 0 4 5 3
        [("a", 1), ("b", 2), ("c", 3)] rfl markWitnessTree_flags
        markWitnessTree_val rfl rfl 3
        (InTree.here "c" 3 (by decide))).2.1⟩

/-! ## The builder's existing-binding branch (no overwrite) -/

theorem entryAt_setEntry (st : BuildState) (i : EntryId) (e : Entry)
    (k : EntryId) :
    entryAt (setEntry st i e) k
      = if k = i ∧ i < st.entries.length then e else entryAt st k := by
  show ((st.entries.set i e).get? k).getD {} = _
  rw [List.get?_set]
  by_cases hk : i = k
  · subst hk
    by_cases hlen : i < st.entries.length
    · rw [if_pos rfl, List.get?_eq_get hlen, if_pos ⟨rfl, hlen⟩]
      rfl
    · rw [if_pos rfl, List.get?_eq_none.mpr (Nat.le_of_not_lt hlen),
        if_neg (fun hc => hlen hc.2)]
      show ({} : Entry) = (st.entries.get? i).getD {}
      rw [List.get?_eq_none.mpr (Nat.le_of_not_lt hlen)]
      rfl
  · rw [if_neg hk, if_neg (fun hc => hk hc.1.symm)]
    rfl

theorem alook_map_upd {κ α : Type} [DecidableEq κ] (k : κ) (f : α → α) :
    ∀ (l : List (κ × α)) (v : α), alook k l = some v →
      alook k (l.map (fun p => if p.1 = k then (p.1, f p.2) else p))
        = some (f v) := by
  intro l
  induction l with
  | nil =>
      intro v h
      simp [alook] at h
  | cons p ps ih =>
      intro v h
      rw [alook] at h
      by_cases hp : p.1 = k
      · rw [if_pos hp] at h
        injection h with hv
        simp only [List.map, alook, if_pos hp]
        rw [hv]
      · rw [if_neg hp] at h
        simp only [List.map, alook, if_neg hp]
        exact ih v h

theorem getDependencyTarget_none (st : BuildState) (md : Dir)
    (hal : alook md.dropLast st.moduleDirs = none) :
    getDependencyTarget st md = (Target.rootT, st) := by
  show (match alook md.dropLast st.moduleDirs with
    | none => (Target.rootT, st)
    | some tid =>
        match (entryAt st tid).dependencies with
        | none => (Target.entryT tid,
            setEntry st tid { entryAt st tid with dependencies := some [] })
        | some _ => (Target.entryT tid, st)) = _
  rw [hal]

theorem getDependencyTarget_some (st : BuildState) (md : Dir) (tid : EntryId)
    (hal : alook md.dropLast st.moduleDirs = some tid) :
    getDependencyTarget st md
      = match (entryAt st tid).dependencies with
        | none => (Target.entryT tid,
            setEntry st tid { entryAt st tid with dependencies := some [] })
        | some _ => (Target.entryT tid, st) := by
  show (match alook md.dropLast st.moduleDirs with
    | none => (Target.rootT, st)
    | some t0 =>
        match (entryAt st t0).dependencies with
        | none => (Target.entryT t0,
            setEntry st t0 { entryAt st t0 with dependencies := some [] })
        | some _ => (Target.entryT t0, st)) = _
  rw [hal]

/-- When the dependency name is already bound in the chosen hoist-target
map, that target choice cannot have performed the lazy `dependencies := \x7b\x7d`
initialization: the state component of `chooseTarget` is the input state
unchanged. -/
theorem chooseTarget_snd_of_bound (st st2 : BuildState) (resolvedDir : Dir)
    (tgt : Target) (depName : String) (existing : EntryId)
    (hts : chooseTarget st resolvedDir = (tgt, st2))
    (hex : alook depName (readTarget st2 tgt) = some existing) :
    st2 = st := by
  cases hmd : getModulesDir resolvedDir with
  | none =>
      have h1 : chooseTarget st resolvedDir = (Target.rootT, st) := by
        rw [chooseTarget, hmd]
      rw [h1] at hts
      injection hts with ha hb
      exact hb.symm
  | some md =>
      have h1 : chooseTarget st resolvedDir = getDependencyTarget st md := by
        rw [chooseTarget, hmd]
      rw [h1] at hts
      cases hal : alook md.dropLast st.moduleDirs with
      | none =>
          rw [getDependencyTarget_none st md hal] at hts
          injection hts with ha hb
          exact hb.symm
      | some tid =>
          cases hdep : (entryAt st tid).dependencies with
          | none =>
              have h2 : getDependencyTarget st md
                  = (Target.entryT tid, setEntry st tid
                      { entryAt st tid with dependencies := some [] }) := by
                rw [getDependencyTarget_some st md tid hal, hdep]
              rw [h2] at hts
              injection hts with ha hb
              rw [← ha, ← hb] at hex
              have h3 : readTarget
                  (setEntry st tid
                    { entryAt st tid with dependencies := some [] })
                  (Target.entryT tid) = [] := by
                show ((entryAt (setEntry st tid
                    { entryAt st tid with dependencies := some [] })
                    tid).dependencies).getD [] = []
                rw [entryAt_setEntry]
                by_cases hl : tid < st.entries.length
                · rw [if_pos ⟨rfl, hl⟩]
                  rfl
                · rw [if_neg (fun hc => hl hc.2), hdep]
                  rfl
              rw [h3] at hex
              simp [alook] at hex
          | some l =>
              have h2 : getDependencyTarget st md = (Target.entryT tid, st) := by
                rw [getDependencyTarget_some st md tid hal, hdep]
              rw [h2] at hts
              injection hts with ha hb
              exact hb.symm

/-- **C10.** When a required dependency's resolved directory is not yet
visited but its name is already bound in the chosen hoist-target map, the
builder's loop takes the else-branch: the target state is the input state
unchanged, the step records only the logical edge to the already-bound
entry in the requiring entry's `resolves` map and continues with the
remaining names — for ANY recursion function `build`, so no recursion
happens —, no Entry is allocated, the resolved directory joins neither
`visited` nor `moduleDirs`, and the target map's binding for the name is
not overwritten. -/
theorem buildDeps_no_overwrite (env : Env)
    (build : Dir → Bool → BuildState → Except String (EntryId × BuildState))
    (dir resolvedDir : Dir) (id : EntryId) (depName : String)
    (rest : List String) (st st2 : BuildState) (tgt : Target)
    (existing : EntryId)
    (hloc : env.locate dir depName = some resolvedDir)
    (hnv : resolvedDir ∉ st.visited)
    (hts : chooseTarget st resolvedDir = (tgt, st2))
    (hex : alook depName (readTarget st2 tgt) = some existing) :
    st2 = st ∧
    buildDeps env build dir id (depName :: rest) st
      = buildDeps env build dir id rest (addResolve st id depName existing) ∧
    (addResolve st id depName existing).entries = st.entries ∧
    (addResolve st id depName existing).visited = st.visited ∧
    (addResolve st id depName existing).moduleDirs = st.moduleDirs ∧
    alook depName (readTarget (addResolve st id depName existing) tgt)
      = some existing ∧
    (∀ m, alook id st.resolves = some m →
      alook id (addResolve st id depName existing).resolves
        = some (aset depName existing m)) := by
  have hst2 : st2 = st :=
    chooseTarget_snd_of_bound st st2 resolvedDir tgt depName existing hts hex
  rw [hst2] at hts hex
  refine ⟨hst2, ?_, rfl, rfl, rfl, ?_, ?_⟩
  · rw [buildDeps, hloc]
    show (if resolvedDir ∈ st.visited then buildDeps env build dir id rest st
      else
        match alook depName (readTarget (chooseTarget st resolvedDir).2
            (chooseTarget st resolvedDir).1) with
        | some e1 =>
            buildDeps env build dir id rest
              (addResolve (chooseTarget st resolvedDir).2 id depName e1)
        | none =>
            match build resolvedDir false (chooseTarget st resolvedDir).2 with
            | Except.error e => Except.error e
            | Except.ok (d2, s2) =>
                buildDeps env build dir id rest
                  (addResolve
                    (insertWithOwner s2 (chooseTarget st resolvedDir).1
                      depName d2) id depName d2))
      = _
    rw [if_neg hnv, hts]
    show (match alook depName (readTarget st tgt) with
      | some e1 =>
          buildDeps env build dir id rest (addResolve st id depName e1)
      | none =>
          match build resolvedDir false st with
          | Except.error e => Except.error e
          | Except.ok (d2, s2) =>
              buildDeps env build dir id rest
                (addResolve (insertWithOwner s2 tgt depName d2) id depName d2))
      = _
    rw [hex]
  · have h6 : readTarget (addResolve st id depName existing) tgt
        = readTarget st tgt := by
      cases tgt <;> rfl
    rw [h6]
    exact hex
  · intro m hm
    exact alook_map_upd id (aset depName existing) st.resolves m hm

/-- A state whose root map already binds `x` to the existing entry `1`,
with only the root directory visited. -/
def hoistSt : BuildState :=
  { entries := [{}, {}],
    rootDeps := [("x", 1)],
    visited := [["r"]],
    moduleDirs := [(["r"], 0)],
    resolves := [(0, [])] }

/-- A locator resolving `x` from the root directory to an unvisited
directory. -/
def hoistEnv : Env where
  readManifest _ := {}
  manifestExists _ := true
  locate d n := if d = ["r"] ∧ n = "x" then some ["r2"] else none

/-- Witness for `buildDeps_no_overwrite`: with `x` already bound in the
root map to entry `1` and its resolved directory `r2` unvisited, the loop
step only records the edge and moves on. -/
theorem buildDeps_no_overwrite_witness :
    (buildDeps hoistEnv (fun _ _ s => Except.ok (0, s)) ["r"] 0 ["x"] hoistSt
      = buildDeps hoistEnv (fun _ _ s => Except.ok (0, s)) ["r"] 0 []
          (addResolve hoistSt 0 "x" 1)) ∧
    (addResolve hoistSt 0 "x" 1).entries = hoistSt.entries ∧
    (addResolve hoistSt 0 "x" 1).visited = hoistSt.visited ∧
    (addResolve hoistSt 0 "x" 1).moduleDirs = hoistSt.moduleDirs ∧
    alook 0 (addResolve hoistSt 0 "x" 1).resolves = some (aset "x" 1 []) :=
  ⟨(buildDeps_no_overwrite hoistEnv (fun _ _ s => Except.ok (0, s)) ["r"]
      ["r2"] 0 "x" [] hoistSt hoistSt Target.rootT 1 rfl (by decide)
      rfl rfl).2.1,
   (buildDeps_no_overwrite hoistEnv (fun _ _ s => Except.ok (0, s)) ["r"]
      ["r2"] 0 "x" [] hoistSt hoistSt Target.rootT 1 rfl (by decide)
      rfl rfl).2.2.1,
   (buildDeps_no_overwrite hoistEnv (fun _ _ s => Except.ok (0, s)) ["r"]
      ["r2"] 0 "x" [] hoistSt hoistSt Target.rootT 1 rfl (by decide)
      rfl rfl).2.2.2.1,
   (buildDeps_no_overwrite hoistEnv (fun _ _ s => Except.ok (0, s)) ["r"]
      ["r2"] 0 "x" [] hoistSt hoistSt Target.rootT 1 rfl (by decide)
      rfl rfl).2.2.2.2.1,
   (buildDeps_no_overwrite hoistEnv (fun _ _ s => Except.ok (0, s)) ["r"]
      ["r2"] 0 "x" [] hoistSt hoistSt Target.rootT 1 rfl (by decide)
      rfl rfl).2.2.2.2.2.2 [] rfl⟩

/-! ## Builder state-step lemmas -/

theorem aset_absent {κ α : Type} [DecidableEq κ] (k : κ) (v : α)
    (l : List (κ × α)) (h : alook k l = none) :
    aset k v l = l ++ [(k, v)] := by
  have hk : hasKey k l = false := by rw [hasKey, h]; rfl
  show (if hasKey k l then l.map (fun p => if p.1 = k then (k, v) else p)
    else l ++ [(k, v)]) = _
  rw [hk]
  rfl

theorem addDir_absent (d : Dir) (l : List Dir) (h : d ∉ l) :
    addDir d l = l ++ [d] := by
  rw [addDir, if_neg h]

theorem entries_getD_append_lt (l : List Entry) (e : Entry) (i : Nat)
    (h : i < l.length) :
    (l ++ [e]).getD i {} = l.getD i {} := by
  show ((l ++ [e]).get? i).getD {} = (l.get? i).getD {}
  rw [List.get?_append h]

theorem entries_getD_append_self (l : List Entry) (e : Entry) :
    (l ++ [e]).getD l.length {} = e := by
  show ((l ++ [e]).get? l.length).getD {} = e
  rw [List.get?_append_right (Nat.le_refl _), Nat.sub_self]
  rfl

theorem entries_getD_append_gt (l : List Entry) (e : Entry) (i : Nat)
    (h : l.length < i) :
    (l ++ [e]).getD i {} = ({} : Entry) := by
  show ((l ++ [e]).get? i).getD {} = _
  rw [List.get?_append_right (Nat.le_of_lt h)]
  rw [List.get?_eq_none.mpr (by simp only [List.length_singleton]; omega)]
  rfl

theorem entries_getD_of_le (l : List Entry) (i : Nat) (h : l.length ≤ i) :
    l.getD i {} = ({} : Entry) := by
  show (l.get? i).getD {} = _
  rw [List.get?_eq_none.mpr h]
  rfl

theorem setEntry_length (st : BuildState) (i : EntryId) (e : Entry) :
    (setEntry st i e).entries.length = st.entries.length := by
  simp [setEntry]

theorem entryAt_owner_setDeps (st : BuildState) (tid : EntryId)
    (v : Option Deps) (i : EntryId) :
    (entryAt (setEntry st tid
      { entryAt st tid with dependencies := v }) i).owner
      = (entryAt st i).owner := by
  rw [entryAt_setEntry]
  by_cases h : i = tid ∧ tid < st.entries.length
  · rw [if_pos h, h.1]
  · rw [if_neg h]

theorem chooseTarget_state (st : BuildState) (rd : Dir) :
    (chooseTarget st rd).2.moduleDirs = st.moduleDirs ∧
    (chooseTarget st rd).2.visited = st.visited ∧
    (chooseTarget st rd).2.entries.length = st.entries.length ∧
    (chooseTarget st rd).2.ownerSets = st.ownerSets ∧
    (chooseTarget st rd).2.inserts = st.inserts ∧
    (∀ i, (entryAt (chooseTarget st rd).2 i).owner = (entryAt st i).owner) := by
  cases hmd : getModulesDir rd with
  | none =>
      have h1 : chooseTarget st rd = (Target.rootT, st) := by
        rw [chooseTarget, hmd]
      rw [h1]
      exact ⟨rfl, rfl, rfl, rfl, rfl, fun i => rfl⟩
  | some md =>
      have h1 : chooseTarget st rd = getDependencyTarget st md := by
        rw [chooseTarget, hmd]
      rw [h1]
      cases hal : alook md.dropLast st.moduleDirs with
      | none =>
          rw [getDependencyTarget_none st md hal]
          exact ⟨rfl, rfl, rfl, rfl, rfl, fun i => rfl⟩
      | some tid =>
          cases hdep : (entryAt st tid).dependencies with
          | none =>
              have h2 : getDependencyTarget st md
                  = (Target.entryT tid, setEntry st tid
                      { entryAt st tid with dependencies := some [] }) := by
                rw [getDependencyTarget_some st md tid hal, hdep]
              rw [h2]
              exact ⟨rfl, rfl, setEntry_length st tid _, rfl, rfl,
                fun i => entryAt_owner_setDeps st tid (some []) i⟩
          | some l =>
              have h2 : getDependencyTarget st md = (Target.entryT tid, st) := by
                rw [getDependencyTarget_some st md tid hal, hdep]
              rw [h2]
              exact ⟨rfl, rfl, rfl, rfl, rfl, fun i => rfl⟩

theorem insertWithOwner_state (st : BuildState) (t : Target) (n : String)
    (d : EntryId) :
    (insertWithOwner st t n d).moduleDirs = st.moduleDirs ∧
    (insertWithOwner st t n d).visited = st.visited ∧
    (insertWithOwner st t n d).entries.length = st.entries.length ∧
    (insertWithOwner st t n d).ownerSets
      = st.ownerSets ++ [(d, ownerOfTarget t)] ∧
    (insertWithOwner st t n d).inserts = st.inserts ++ [(d, t)] ∧
    (∀ i, (entryAt (insertWithOwner st t n d) i).owner
      = if i = d ∧ d < st.entries.length then some (ownerOfTarget t)
        else (entryAt st i).owner) := by
  cases t with
  | rootT =>
      refine ⟨rfl, rfl, setEntry_length _ d _, rfl, rfl, ?_⟩
      intro i
      show (entryAt (setEntry { st with rootDeps := aset n d st.rootDeps } d
        { entryAt { st with rootDeps := aset n d st.rootDeps } d with
          owner := some (ownerOfTarget Target.rootT) }) i).owner = _
      rw [entryAt_setEntry]
      by_cases h : i = d ∧ d < st.entries.length
      · rw [if_pos h, if_pos h]
      · rw [if_neg h, if_neg h]
        rfl
  | entryT tid =>
      have hl1 : (setEntry st tid { entryAt st tid with
          dependencies := some (aset n d
            (((entryAt st tid).dependencies).getD [])) }).entries.length
          = st.entries.length := setEntry_length st tid _
      refine ⟨rfl, rfl, ?_, rfl, rfl, ?_⟩
      · show (setEntry _ d _).entries.length = _
        rw [setEntry_length, hl1]
      · intro i
        show (entryAt (setEntry _ d _) i).owner = _
        rw [entryAt_setEntry]
        by_cases h : i = d ∧ d < st.entries.length
        · rw [if_pos (by rw [hl1]; exact h), if_pos h]
        · rw [if_neg (by rw [hl1]; exact h), if_neg h]
          exact entryAt_owner_setDeps st tid _ i

/-! ## Reduction equations for the builder loop -/

/-- The else-branch of the builder loop (unvisited resolved directory),
split out so the loop's branches can be reasoned about one at a time. -/
def buildDepsElse (env : Env)
    (build : Dir → Bool → BuildState → Except String (EntryId × BuildState))
    (dir : Dir) (id : EntryId) (depName : String) (rest : List String)
    (st : BuildState) (rd : Dir) : Except String BuildState :=
  match alook depName
      (readTarget (chooseTarget st rd).2 (chooseTarget st rd).1) with
  | some e1 =>
      buildDeps env build dir id rest
        (addResolve (chooseTarget st rd).2 id depName e1)
  | none =>
      match build rd false (chooseTarget st rd).2 with
      | Except.error e => Except.error e
      | Except.ok (d2, s2) =>
          buildDeps env build dir id rest
            (addResolve (insertWithOwner s2 (chooseTarget st rd).1 depName d2)
              id depName d2)

theorem buildDeps_nil (env : Env)
    (build : Dir → Bool → BuildState → Except String (EntryId × BuildState))
    (dir : Dir) (id : EntryId) (st : BuildState) :
    buildDeps env build dir id [] st = Except.ok st := rfl

theorem buildDeps_cons_notFound (env : Env)
    (build : Dir → Bool → BuildState → Except String (EntryId × BuildState))
    (dir : Dir) (id : EntryId) (n : String) (rest : List String)
    (st : BuildState) (h : env.locate dir n = none) :
    buildDeps env build dir id (n :: rest) st
      = Except.error (notFoundMsg n) := by
  rw [buildDeps, h]

theorem buildDeps_cons_eq (env : Env)
    (build : Dir → Bool → BuildState → Except String (EntryId × BuildState))
    (dir : Dir) (id : EntryId) (n : String) (rest : List String)
    (st : BuildState) (rd : Dir) (hloc : env.locate dir n = some rd) :
    buildDeps env build dir id (n :: rest) st
      = if rd ∈ st.visited then buildDeps env build dir id rest st
        else buildDepsElse env build dir id n rest st rd := by
  rw [buildDeps, hloc]
  rfl

theorem buildDepsElse_bound (env : Env)
    (build : Dir → Bool → BuildState → Except String (EntryId × BuildState))
    (dir : Dir) (id : EntryId) (n : String) (rest : List String)
    (st : BuildState) (rd : Dir) (tgt : Target) (stt : BuildState)
    (e1 : EntryId) (hts : chooseTarget st rd = (tgt, stt))
    (hex : alook n (readTarget stt tgt) = some e1) :
    buildDepsElse env build dir id n rest st rd
      = buildDeps env build dir id rest (addResolve stt id n e1) := by
  show (match alook n
      (readTarget (chooseTarget st rd).2 (chooseTarget st rd).1) with
    | some x =>
        buildDeps env build dir id rest
          (addResolve (chooseTarget st rd).2 id n x)
    | none =>
        match build rd false (chooseTarget st rd).2 with
        | Except.error e => Except.error e
        | Except.ok (d2, s2) =>
            buildDeps env build dir id rest
              (addResolve (insertWithOwner s2 (chooseTarget st rd).1 n d2)
                id n d2)) = _
  rw [hts]
  show (match alook n (readTarget stt tgt) with
    | some x => buildDeps env build dir id rest (addResolve stt id n x)
    | none =>
        match build rd false stt with
        | Except.error e => Except.error e
        | Except.ok (d2, s2) =>
            buildDeps env build dir id rest
              (addResolve (insertWithOwner s2 tgt n d2) id n d2)) = _
  rw [hex]

theorem buildDepsElse_fresh_ok (env : Env)
    (build : Dir → Bool → BuildState → Except String (EntryId × BuildState))
    (dir : Dir) (id : EntryId) (n : String) (rest : List String)
    (st : BuildState) (rd : Dir) (tgt : Target) (stt : BuildState)
    (dId : EntryId) (st2 : BuildState)
    (hts : chooseTarget st rd = (tgt, stt))
    (halk : alook n (readTarget stt tgt) = none)
    (hb : build rd false stt = Except.ok (dId, st2)) :
    buildDepsElse env build dir id n rest st rd
      = buildDeps env build dir id rest
          (addResolve (insertWithOwner st2 tgt n dId) id n dId) := by
  show (match alook n
      (readTarget (chooseTarget st rd).2 (chooseTarget st rd).1) with
    | some x =>
        buildDeps env build dir id rest
          (addResolve (chooseTarget st rd).2 id n x)
    | none =>
        match build rd false (chooseTarget st rd).2 with
        | Except.error e => Except.error e
        | Except.ok (d2, s2) =>
            buildDeps env build dir id rest
              (addResolve (insertWithOwner s2 (chooseTarget st rd).1 n d2)
                id n d2)) = _
  rw [hts]
  show (match alook n (readTarget stt tgt) with
    | some x => buildDeps env build dir id rest (addResolve stt id n x)
    | none =>
        match build rd false stt with
        | Except.error e => Except.error e
        | Except.ok (d2, s2) =>
            buildDeps env build dir id rest
              (addResolve (insertWithOwner s2 tgt n d2) id n d2)) = _
  rw [halk]
  show (match build rd false stt with
    | Except.error e => Except.error e
    | Except.ok (d2, s2) =>
        buildDeps env build dir id rest
          (addResolve (insertWithOwner s2 tgt n d2) id n d2)) = _
  rw [hb]

theorem buildDepsElse_fresh_err (env : Env)
    (build : Dir → Bool → BuildState → Except String (EntryId × BuildState))
    (dir : Dir) (id : EntryId) (n : String) (rest : List String)
    (st : BuildState) (rd : Dir) (tgt : Target) (stt : BuildState)
    (e : String) (hts : chooseTarget st rd = (tgt, stt))
    (halk : alook n (readTarget stt tgt) = none)
    (hb : build rd false stt = Except.error e) :
    buildDepsElse env build dir id n rest st rd = Except.error e := by
  show (match alook n
      (readTarget (chooseTarget st rd).2 (chooseTarget st rd).1) with
    | some x =>
        buildDeps env build dir id rest
          (addResolve (chooseTarget st rd).2 id n x)
    | none =>
        match build rd false (chooseTarget st rd).2 with
        | Except.error e => Except.error e
        | Except.ok (d2, s2) =>
            buildDeps env build dir id rest
              (addResolve (insertWithOwner s2 (chooseTarget st rd).1 n d2)
                id n d2)) = _
  rw [hts]
  show (match alook n (readTarget stt tgt) with
    | some x => buildDeps env build dir id rest (addResolve stt id n x)
    | none =>
        match build rd false stt with
        | Except.error e => Except.error e
        | Except.ok (d2, s2) =>
            buildDeps env build dir id rest
              (addResolve (insertWithOwner s2 tgt n d2) id n d2)) = _
  rw [halk]
  show (match build rd false stt with
    | Except.error e => Except.error e
    | Except.ok (d2, s2) =>
        buildDeps env build dir id rest
          (addResolve (insertWithOwner s2 tgt n d2) id n d2)) = _
  rw [hb]

/-- The allocation step of `buildLockfileEntry`: append the new entry to
the arena and register its directory. -/
def allocEntry (env : Env) (dir : Dir) (includeDev : Bool)
    (st : BuildState) : BuildState :=
  let manifest := env.readManifest dir
  let reqs := getRequires env dir includeDev
  let id := st.entries.length
  { st with
    entries := st.entries ++
      [{ version := manifest.version
         integrity := manifest.integrity
         resolved := manifest.resolvedUrl
         requires := some reqs
         dependencies := some [] }]
    visited := addDir dir st.visited
    moduleDirs := aset dir id st.moduleDirs
    resolves := st.resolves ++ [(id, [])] }

theorem buildLockfileEntry_succ (env : Env) (fuel : Nat) (dir : Dir)
    (includeDev : Bool) (st : BuildState) :
    buildLockfileEntry env (fuel + 1) dir includeDev st
      = match buildDeps env (buildLockfileEntry env fuel) dir
          st.entries.length (keysOf (getRequires env dir includeDev))
          (allocEntry env dir includeDev st) with
        | Except.error e => Except.error e
        | Except.ok st2 => Except.ok (st.entries.length, st2) := rfl

/-! ## The builder invariant -/

/-- The run invariant of the tree builder: `visited` and `moduleDirs` are
kept in lockstep, each directory is registered at most once, the
registered entries are exactly the arena cells in allocation order, and
the ghost `ownerSets` log is exactly one write per owned entry, equal to
the `inserts` log's containers, agreeing with the live `owner` fields. -/
structure BInv (st : BuildState) : Prop where
  vmk : ∀ d, d ∈ st.visited ↔ (alook d st.moduleDirs).isSome = true
  mdk : (st.moduleDirs.map Prod.fst).Nodup
  mds : st.moduleDirs.map Prod.snd = List.range st.entries.length
  osk : (st.ownerSets.map Prod.fst).Nodup
  osa : ∀ p ∈ st.ownerSets, (entryAt st p.1).owner = some p.2
  osn : ∀ i, i ∉ st.ownerSets.map Prod.fst → (entryAt st i).owner = none
  osi : st.ownerSets = st.inserts.map (fun p => (p.1, ownerOfTarget p.2))
  osb : ∀ p ∈ st.ownerSets, p.1 < st.entries.length

theorem BInv_of_fields {st st2 : BuildState}
    (hm : st2.moduleDirs = st.moduleDirs) (hv : st2.visited = st.visited)
    (hl : st2.entries.length = st.entries.length)
    (ho : st2.ownerSets = st.ownerSets) (hi : st2.inserts = st.inserts)
    (hw : ∀ i, (entryAt st2 i).owner = (entryAt st i).owner)
    (h : BInv st) : BInv st2 := by
  refine ⟨?_, ?_, ?_, ?_, ?_, ?_, ?_, ?_⟩
  · intro d
    rw [hv, hm]
    exact h.vmk d
  · rw [hm]
    exact h.mdk
  · rw [hm, hl]
    exact h.mds
  · rw [ho]
    exact h.osk
  · intro p hp
    rw [ho] at hp
    rw [hw]
    exact h.osa p hp
  · intro i hif
    rw [ho] at hif
    rw [hw]
    exact h.osn i hif
  · rw [ho, hi]
    exact h.osi
  · intro p hp
    rw [ho] at hp
    rw [hl]
    exact h.osb p hp

theorem BInv_empty : BInv {} := by
  refine ⟨?_, ?_, ?_, ?_, ?_, ?_, ?_, ?_⟩
  · intro d
    simp [alook]
  · exact List.nodup_nil
  · rfl
  · exact List.nodup_nil
  · intro p hp
    cases hp
  · intro i hif
    rfl
  · rfl
  · intro p hp
    cases hp

theorem BInv_insertWithOwner (st : BuildState) (t : Target) (n : String)
    (d : EntryId) (h : BInv st) (hd : d < st.entries.length)
    (hdo : (entryAt st d).owner = none) :
    BInv (insertWithOwner st t n d) := by
  obtain ⟨hm, hv, hl, ho, hi, hw⟩ := insertWithOwner_state st t n d
  have hdfst : d ∉ st.ownerSets.map Prod.fst := by
    intro hmem
    obtain ⟨p, hp, hpd⟩ := List.mem_map.mp hmem
    have hx := h.osa p hp
    rw [hpd, hdo] at hx
    exact Option.noConfusion hx
  refine ⟨?_, ?_, ?_, ?_, ?_, ?_, ?_, ?_⟩
  · intro dd
    rw [hv, hm]
    exact h.vmk dd
  · rw [hm]
    exact h.mdk
  · rw [hm, hl]
    exact h.mds
  · rw [ho, List.map_append]
    refine List.Nodup.append h.osk (List.nodup_singleton d) ?_
    intro a ha hb
    rw [show (List.map Prod.fst [(d, ownerOfTarget t)]) = [d] from rfl] at hb
    exact hdfst (List.mem_singleton.mp hb ▸ ha)
  · intro p hp
    rw [ho] at hp
    rcases List.mem_append.mp hp with hp1 | hp2
    · rw [hw]
      have hne : ¬(p.1 = d ∧ d < st.entries.length) := by
        intro hc
        exact hdfst (hc.1 ▸ List.mem_map_of_mem Prod.fst hp1)
      rw [if_neg hne]
      exact h.osa p hp1
    · have hp3 : p = (d, ownerOfTarget t) := List.mem_singleton.mp hp2
      subst hp3
      rw [hw]
      rw [if_pos ⟨rfl, hd⟩]
  · intro i hif
    rw [ho, List.map_append] at hif
    have hi1 : i ∉ st.ownerSets.map Prod.fst :=
      fun hx => hif (List.mem_append_left _ hx)
    have hi2 : i ≠ d := by
      intro he
      exact hif (List.mem_append_right _ (by rw [he]; simp))
    rw [hw, if_neg (fun hc => hi2 hc.1)]
    exact h.osn i hi1
  · rw [ho, hi, List.map_append, h.osi]
    rfl
  · intro p hp
    rw [hl]
    rw [ho] at hp
    rcases List.mem_append.mp hp with hp1 | hp2
    · exact h.osb p hp1
    · rw [List.mem_singleton.mp hp2]
      exact hd

theorem allocEntry_state (env : Env) (dir : Dir) (incl : Bool)
    (st : BuildState) (hnv : dir ∉ st.visited) (h : BInv st) :
    (allocEntry env dir incl st).moduleDirs
      = st.moduleDirs ++ [(dir, st.entries.length)] ∧
    (allocEntry env dir incl st).visited = st.visited ++ [dir] ∧
    (allocEntry env dir incl st).entries.length = st.entries.length + 1 ∧
    (allocEntry env dir incl st).ownerSets = st.ownerSets ∧
    (allocEntry env dir incl st).inserts = st.inserts ∧
    (∀ i, (entryAt (allocEntry env dir incl st) i).owner
      = if i = st.entries.length then none else (entryAt st i).owner) := by
  have halk : alook dir st.moduleDirs = none := by
    cases hx : alook dir st.moduleDirs with
    | none => rfl
    | some v =>
        exact absurd ((h.vmk dir).mpr (by rw [hx]; rfl)) hnv
  refine ⟨?_, ?_, ?_, rfl, rfl, ?_⟩
  · show aset dir st.entries.length st.moduleDirs = _
    exact aset_absent dir st.entries.length st.moduleDirs halk
  · show addDir dir st.visited = _
    exact addDir_absent dir st.visited hnv
  · show (st.entries ++ [_]).length = _
    rw [List.length_append]
    rfl
  · intro i
    show ((st.entries ++ [_]).getD i {}).owner = _
    rcases Nat.lt_trichotomy i st.entries.length with hlt | heq | hgt
    · rw [entries_getD_append_lt _ _ _ hlt,
        if_neg (fun hc => absurd hlt (by rw [hc]; exact Nat.lt_irrefl _))]
      rfl
    · subst heq
      rw [entries_getD_append_self, if_pos rfl]
    · rw [entries_getD_append_gt _ _ _ hgt,
        if_neg (fun hc => absurd hgt (by rw [hc]; exact Nat.lt_irrefl _))]
      show (({} : Entry)).owner = (entryAt st i).owner
      rw [show entryAt st i = ({} : Entry) from
        entries_getD_of_le st.entries i (Nat.le_of_lt hgt)]

theorem BInv_allocEntry (env : Env) (dir : Dir) (incl : Bool)
    (st : BuildState) (hnv : dir ∉ st.visited) (h : BInv st) :
    BInv (allocEntry env dir incl st) := by
  obtain ⟨hm, hv, hl, ho, hi, hw⟩ := allocEntry_state env dir incl st hnv h
  have halk : alook dir st.moduleDirs = none := by
    cases hx : alook dir st.moduleDirs with
    | none => rfl
    | some v =>
        exact absurd ((h.vmk dir).mpr (by rw [hx]; rfl)) hnv
  refine ⟨?_, ?_, ?_, ?_, ?_, ?_, ?_, ?_⟩
  · intro d
    rw [hv, hm, List.mem_append, alook_append]
    constructor
    · intro hmem
      rcases hmem with h1 | h1
      · have hx := (h.vmk d).mp h1
        cases hy : alook d st.moduleDirs with
        | none =>
            rw [hy] at hx
            exact absurd hx (by decide)
        | some v => rfl
      · have hd : d = dir := List.mem_singleton.mp h1
        subst hd
        rw [halk]
        simp [alook]
    · intro hsome
      by_cases h1 : d ∈ st.visited
      · exact Or.inl h1
      · right
        have hy : alook d st.moduleDirs = none := by
          cases hy2 : alook d st.moduleDirs with
          | none => rfl
          | some v =>
              exact absurd ((h.vmk d).mpr (by rw [hy2]; rfl)) h1
        rw [hy] at hsome
        by_cases hd : dir = d
        · exact List.mem_singleton.mpr hd.symm
        · exfalso
          have hz : alook d [(dir, st.entries.length)] = none := by
            simp [alook, hd]
          rw [hz] at hsome
          exact absurd hsome (by decide)
  · rw [hm, List.map_append]
    refine List.Nodup.append h.mdk (List.nodup_singleton dir) ?_
    intro a ha hb
    rw [show (List.map Prod.fst [(dir, st.entries.length)]) = [dir]
      from rfl] at hb
    have ha2 : a ∈ keysOf st.moduleDirs := ha
    rw [List.mem_singleton.mp hb] at ha2
    exact (alook_eq_none_iff.mp halk) ha2
  · rw [hm, hl, List.map_append, h.mds, List.range_succ]
    rfl
  · rw [ho]
    exact h.osk
  · intro p hp
    rw [ho] at hp
    rw [hw, if_neg (fun hc =>
      absurd (h.osb p hp) (by rw [hc]; exact Nat.lt_irrefl _))]
    exact h.osa p hp
  · intro i hif
    rw [ho] at hif
    rw [hw]
    by_cases hc : i = st.entries.length
    · rw [if_pos hc]
    · rw [if_neg hc]
      exact h.osn i hif
  · rw [ho, hi]
    exact h.osi
  · intro p hp
    rw [ho] at hp
    rw [hl]
    exact Nat.lt_succ_of_lt (h.osb p hp)

/-! ## The builder induction -/

/-- What one (recursive) `buildLockfileEntry` call guarantees: the
invariant is preserved, the returned id is the next arena cell, the arena
strictly grows, `moduleDirs`/`ownerSets` are only appended to, the
directory ends up registered to the returned id, every new owner write is
to an entry allocated strictly after the returned one, the returned
entry's own `owner` is still unset, and older entries' `owner` fields are
untouched. -/
def BuildSpec
    (build : Dir → Bool → BuildState → Except String (EntryId × BuildState)) :
    Prop :=
  ∀ dir incl st id st2, BInv st → dir ∉ st.visited →
    build dir incl st = Except.ok (id, st2) →
    BInv st2 ∧
    id = st.entries.length ∧
    st.entries.length < st2.entries.length ∧
    (∃ d, st2.moduleDirs = st.moduleDirs ++ d) ∧
    alook dir st2.moduleDirs = some id ∧
    (∀ d2, d2 ∈ st.visited → d2 ∈ st2.visited) ∧
    (∃ d, st2.ownerSets = st.ownerSets ++ d) ∧
    (∀ p ∈ st2.ownerSets, p ∉ st.ownerSets → id < p.1) ∧
    (entryAt st2 id).owner = none ∧
    (∀ i, i < st.entries.length →
      (entryAt st2 i).owner = (entryAt st i).owner)

/-- What the builder's dependency loop guarantees from state `st` to
state `st3`. -/
def DepsOut (st st3 : BuildState) : Prop :=
  BInv st3 ∧
  st.entries.length ≤ st3.entries.length ∧
  (∃ d, st3.moduleDirs = st.moduleDirs ++ d) ∧
  (∀ d2, d2 ∈ st.visited → d2 ∈ st3.visited) ∧
  (∃ d, st3.ownerSets = st.ownerSets ++ d) ∧
  (∀ p ∈ st3.ownerSets, p ∉ st.ownerSets → st.entries.length ≤ p.1) ∧
  (∀ i, i < st.entries.length →
    (entryAt st3 i).owner = (entryAt st i).owner)

theorem buildDeps_spec (env : Env)
    (build : Dir → Bool → BuildState → Except String (EntryId × BuildState))
    (hb : BuildSpec build) :
    ∀ (names : List String) (dir : Dir) (id : EntryId) (st st3 : BuildState),
      BInv st → buildDeps env build dir id names st = Except.ok st3 →
      DepsOut st st3 := by
  intro names
  induction names with
  | nil =>
      intro dir id st st3 h hrun
      rw [buildDeps_nil] at hrun
      injection hrun with h1
      subst h1
      exact ⟨h, Nat.le_refl _, ⟨[], (List.append_nil _).symm⟩,
        fun d2 h2 => h2, ⟨[], (List.append_nil _).symm⟩,
        fun p hp hnp => absurd hp hnp, fun i _ => rfl⟩
  | cons n rest ih =>
      intro dir id st st3 h hrun
      cases hloc : env.locate dir n with
      | none =>
          rw [buildDeps_cons_notFound env build dir id n rest st hloc] at hrun
          cases hrun
      | some rd =>
          rw [buildDeps_cons_eq env build dir id n rest st rd hloc] at hrun
          by_cases hvis : rd ∈ st.visited
          · rw [if_pos hvis] at hrun
            exact ih dir id st st3 h hrun
          · rw [if_neg hvis] at hrun
            obtain ⟨tgt, stt, hts⟩ :
                ∃ t s, chooseTarget st rd = (t, s) := ⟨_, _, rfl⟩
            have h2nd : (chooseTarget st rd).2 = stt := by rw [hts]
            obtain ⟨hm, hv2, hl, ho, hi, hw⟩ := chooseTarget_state st rd
            rw [h2nd] at hm hv2 hl ho hi hw
            have hInv2 : BInv stt := BInv_of_fields hm hv2 hl ho hi hw h
            cases halk : alook n (readTarget stt tgt) with
            | some e1 =>
                rw [buildDepsElse_bound env build dir id n rest st rd tgt stt
                  e1 hts halk] at hrun
                have hss : stt = st :=
                  chooseTarget_snd_of_bound st stt rd tgt n e1 hts halk
                rw [hss] at hrun
                have hout := ih dir id (addResolve st id n e1) st3
                  (@BInv_of_fields st (addResolve st id n e1) rfl rfl rfl rfl
                    rfl (fun i => rfl) h) hrun
                exact hout
            | none =>
                cases hbres : build rd false stt with
                | error e =>
                    rw [buildDepsElse_fresh_err env build dir id n rest st rd
                      tgt stt e hts halk hbres] at hrun
                    cases hrun
                | ok pr =>
                    obtain ⟨dId, st2⟩ := pr
                    rw [buildDepsElse_fresh_ok env build dir id n rest st rd
                      tgt stt dId st2 hts halk hbres] at hrun
                    have hnv2 : rd ∉ stt.visited := by
                      rw [hv2]
                      exact hvis
                    obtain ⟨hI2, hid, hlt, hmpre, halkd, hvsub, hopre,
                      hofresh, hoid, hoold⟩ :=
                      hb rd false stt dId st2 hInv2 hnv2 hbres
                    have hd2 : dId < st2.entries.length := by
                      rw [hid]
                      exact hlt
                    have hInv3 : BInv (insertWithOwner st2 tgt n dId) :=
                      BInv_insertWithOwner st2 tgt n dId hI2 hd2 hoid
                    obtain ⟨him, hiv, hil, hio, hii, hiw⟩ :=
                      insertWithOwner_state st2 tgt n dId
                    have hout := ih dir id
                      (addResolve (insertWithOwner st2 tgt n dId) id n dId)
                      st3
                      (@BInv_of_fields (insertWithOwner st2 tgt n dId)
                        (addResolve (insertWithOwner st2 tgt n dId) id n dId)
                        rfl rfl rfl rfl rfl (fun i => rfl) hInv3)
                      hrun
                    obtain ⟨hO1, hO2, hO3, hO4, hO5, hO6, hO7⟩ := hout
                    refine ⟨hO1, ?_, ?_, ?_, ?_, ?_, ?_⟩
                    · have hx1 : st.entries.length < st2.entries.length := by
                        rw [← hl]
                        exact hlt
                      have hx2 : (insertWithOwner st2 tgt n dId).entries.length
                          ≤ st3.entries.length := hO2
                      rw [hil] at hx2
                      exact Nat.le_trans (Nat.le_of_lt hx1) hx2

                    · obtain ⟨da, hda⟩ := hmpre
                      obtain ⟨db, hdb⟩ := hO3
                      exact ⟨da ++ db, by
                        rw [hdb]
                        show (insertWithOwner st2 tgt n dId).moduleDirs ++ db
                          = _
                        rw [him, hda, hm, List.append_assoc]⟩
                    · intro d2 hd2v
                      have hx := hvsub d2 (by rw [hv2]; exact hd2v)
                      refine hO4 d2 ?_
                      show d2 ∈ (insertWithOwner st2 tgt n dId).visited
                      rw [hiv]
                      exact hx
                    · obtain ⟨da, hda⟩ := hopre
                      obtain ⟨db, hdb⟩ := hO5
                      refine ⟨da ++ [(dId, ownerOfTarget tgt)] ++ db, ?_⟩
                      rw [hdb]
                      show (insertWithOwner st2 tgt n dId).ownerSets ++ db = _
                      rw [hio, hda, ho]
                      simp only [List.append_assoc]
                    · intro p hp hnp
                      by_cases hpi : p ∈ (insertWithOwner st2 tgt n dId).ownerSets
                      · rw [hio] at hpi
                        rcases List.mem_append.mp hpi with hp1 | hp2
                        · by_cases hps : p ∈ stt.ownerSets
                          · rw [ho] at hps
                            exact absurd hps hnp
                          · have hx := hofresh p hp1 hps
                            rw [hid, hl] at hx
                            exact Nat.le_of_lt hx
                        · rw [List.mem_singleton.mp hp2]
                          show st.entries.length ≤ dId
                          rw [hid, hl]
                      · have hx : (insertWithOwner st2 tgt n dId).entries.length
                            ≤ p.1 := hO6 p hp hpi
                        rw [hil] at hx
                        have hx2 : st.entries.length < st2.entries.length := by
                          rw [← hl]
                          exact hlt
                        exact Nat.le_trans (Nat.le_of_lt hx2) hx
                    · intro i hilt
                      have hx1 : i < (insertWithOwner st2 tgt n dId).entries.length := by
                        rw [hil]
                        exact Nat.lt_trans (by rw [hl]; exact hilt) hlt
                      rw [hO7 i hx1]
                      show (entryAt (insertWithOwner st2 tgt n dId) i).owner
                        = (entryAt st i).owner
                      have hne : ¬(i = dId ∧ dId < st2.entries.length) := by
                        intro hc
                        rw [hc.1, hid, hl] at hilt
                        exact Nat.lt_irrefl _ hilt
                      rw [hiw i, if_neg hne]
                      rw [hoold i (by rw [hl]; exact hilt), hw i]

theorem buildLockfileEntry_spec (env : Env) :
    ∀ fuel, BuildSpec (buildLockfileEntry env fuel) := by
  intro fuel
  induction fuel with
  | zero =>
      intro dir incl st id st2 h hnv hrun
      rw [buildLockfileEntry] at hrun
      cases hrun
  | succ fuel ih =>
      intro dir incl st id st2 h hnv hrun
      rw [buildLockfileEntry_succ] at hrun
      cases hbd : buildDeps env (buildLockfileEntry env fuel) dir
          st.entries.length (keysOf (getRequires env dir incl))
          (allocEntry env dir incl st) with
      | error e =>
          rw [hbd] at hrun
          cases hrun
      | ok st3 =>
          rw [hbd] at hrun
          injection hrun with hpair
          injection hpair with hida hst2
          subst hida
          subst hst2
          obtain ⟨hm, hv, hl, ho, hi, hw⟩ :=
            allocEntry_state env dir incl st hnv h
          have hIa : BInv (allocEntry env dir incl st) :=
            BInv_allocEntry env dir incl st hnv h
          obtain ⟨hO1, hO2, hO3, hO4, hO5, hO6, hO7⟩ :=
            buildDeps_spec env (buildLockfileEntry env fuel) ih
              (keysOf (getRequires env dir incl)) dir st.entries.length
              (allocEntry env dir incl st) st3 hIa hbd
          have halk : alook dir st.moduleDirs = none := by
            cases hx : alook dir st.moduleDirs with
            | none => rfl
            | some v =>
                exact absurd ((h.vmk dir).mpr (by rw [hx]; rfl)) hnv
          refine ⟨hO1, rfl, ?_, ?_, ?_, ?_, ?_, ?_, ?_, ?_⟩
          · have hx : st.entries.length < (allocEntry env dir incl st).entries.length := by
              rw [hl]
              exact Nat.lt_succ_self _
            exact Nat.lt_of_lt_of_le hx hO2
          · obtain ⟨d, hd⟩ := hO3
            exact ⟨[(dir, st.entries.length)] ++ d, by
              rw [hd, hm, List.append_assoc]⟩
          · obtain ⟨d, hd⟩ := hO3
            rw [hd, hm, List.append_assoc, alook_append, halk]
            show (alook dir ([(dir, st.entries.length)] ++ d)) = _
            rw [alook_append]
            rw [show alook dir [(dir, st.entries.length)]
              = some st.entries.length from by simp [alook]]
            rfl
          · intro d2 hd2
            refine hO4 d2 ?_
            rw [hv]
            exact List.mem_append_left _ hd2
          · obtain ⟨d, hd⟩ := hO5
            exact ⟨d, by rw [hd, ho]⟩
          · intro p hp hnp
            have hx := hO6 p hp (by rw [ho]; exact hnp)
            rw [hl] at hx
            exact Nat.lt_of_lt_of_le (Nat.lt_succ_self _) hx
          · have hx1 : st.entries.length < (allocEntry env dir incl st).entries.length := by
              rw [hl]
              exact Nat.lt_succ_self _
            rw [hO7 st.entries.length hx1, hw, if_pos rfl]
          · intro i hilt
            have hx1 : i < (allocEntry env dir incl st).entries.length := by
              rw [hl]
              exact Nat.lt_succ_of_lt hilt
            rw [hO7 i hx1, hw i,
              if_neg (fun hc => absurd hilt
                (by rw [hc]; exact Nat.lt_irrefl _))]

/-- **C6.** Within one generation run (a build from the empty context),
every installed directory is registered at most once (`moduleDirs` keys
are Nodup), and the registered entries are exactly the arena cells, one
per registration, in allocation order (values = `range` of the arena
size) — so at most one Entry is ever created per directory, and every
link a requirer records is the id of that single shared arena cell;
`visited` coincides with the registered directories, and the start
directory is registered to the returned root id. -/
theorem buildLockfileEntry_identity_sharing (env : Env) (fuel : Nat)
    (dir : Dir) (incl : Bool) (id : EntryId) (st2 : BuildState)
    (h : buildLockfileEntry env fuel dir incl {} = Except.ok (id, st2)) :
    (st2.moduleDirs.map Prod.fst).Nodup ∧
    st2.moduleDirs.map Prod.snd = List.range st2.entries.length ∧
    (∀ d, d ∈ st2.visited ↔ (alook d st2.moduleDirs).isSome = true) ∧
    alook dir st2.moduleDirs = some id := by
  have hnv : dir ∉ ({} : BuildState).visited := by
    intro hx
    cases hx
  obtain ⟨h1, h2, h3, h4, h5, h6, h7, h8, h9, h10⟩ :=
    buildLockfileEntry_spec env fuel dir incl {} id st2 BInv_empty hnv h
  exact ⟨h1.mdk, h1.mds, h1.vmk, h5⟩

/-- **C2.** (Modelled from the spec: the provided `Builder.ts` snapshot
predates the `owner` field, so the owner write is embedded as the spec
describes, inside `insertWithOwner`, and instrumented by the ghost
`ownerSets`/`inserts` logs.) In a run from the empty context every
`owner` assignment is logged; each entry is written at most once (log
keys Nodup); the written value is exactly the container of the insertion
that created the binding (`ownerSets` = `inserts` mapped through
`ownerOfTarget`); the live `owner` field still equals the logged write at
the end (never mutated afterwards); entries never written still have no
owner — in particular the returned root entry. -/
theorem owner_set_once_at_construction (env : Env) (fuel : Nat) (dir : Dir)
    (incl : Bool) (id : EntryId) (st2 : BuildState)
    (h : buildLockfileEntry env fuel dir incl {} = Except.ok (id, st2)) :
    (st2.ownerSets.map Prod.fst).Nodup ∧
    st2.ownerSets = st2.inserts.map (fun p => (p.1, ownerOfTarget p.2)) ∧
    (∀ p ∈ st2.ownerSets, (entryAt st2 p.1).owner = some p.2) ∧
    (∀ i, i ∉ st2.ownerSets.map Prod.fst → (entryAt st2 i).owner = none) ∧
    (entryAt st2 id).owner = none := by
  have hnv : dir ∉ ({} : BuildState).visited := by
    intro hx
    cases hx
  obtain ⟨h1, h2, h3, h4, h5, h6, h7, h8, h9, h10⟩ :=
    buildLockfileEntry_spec env fuel dir incl {} id st2 BInv_empty hnv h
  exact ⟨h1.osk, h1.osi, h1.osa, h1.osn, h9⟩

/-- A two-package installation: the root at `p` requires `a`, installed
in `p/node_modules/a`. -/
def twoPkgEnv : Env where
  readManifest d :=
    if d = ["p"] then
      { name := "p", version := "1.0.0", dependencies := [("a", "^1")] }
    else if d = ["p", "node_modules", "a"] then
      { name := "a", version := "1.0.0" }
    else {}
  manifestExists _ := true
  locate d n :=
    if d = ["p"] ∧ n = "a" then some ["p", "node_modules", "a"] else none

/-- The final build state of the two-package run. -/
def twoPkgSt : BuildState :=
  { entries := [
      { version := "1.0.0", requires := some [("a", "^1")],
        dependencies := some [("a", 1)] },
      { version := "1.0.0", requires := some [],
        dependencies := some [], owner := some 0 }],
    rootDeps := [],
    visited := [["p"], ["p", "node_modules", "a"]],
    moduleDirs := [(["p"], 0), (["p", "node_modules", "a"], 1)],
    resolves := [(0, [("a", 1)]), (1, [])],
    ownerSets := [(1, 0)],
    inserts := [(1, Target.entryT 0)] }

/-- Witness for `buildLockfileEntry_identity_sharing` on the concrete
two-package run. -/
theorem buildLockfileEntry_identity_sharing_witness :
    buildLockfileEntry twoPkgEnv 2 ["p"] true {} = Except.ok (0, twoPkgSt) ∧
    (twoPkgSt.moduleDirs.map Prod.fst).Nodup ∧
    twoPkgSt.moduleDirs.map Prod.snd = List.range twoPkgSt.entries.length ∧
    alook ["p"] twoPkgSt.moduleDirs = some 0 :=
  ⟨rfl,
   (buildLockfileEntry_identity_sharing twoPkgEnv 2 ["p"] true 0 twoPkgSt
     rfl).1,
   (buildLockfileEntry_identity_sharing twoPkgEnv 2 ["p"] true 0 twoPkgSt
     rfl).2.1,
   (buildLockfileEntry_identity_sharing twoPkgEnv 2 ["p"] true 0 twoPkgSt
     rfl).2.2.2⟩

/-- Witness for `owner_set_once_at_construction` on the concrete
two-package run: entry `1` (package `a`) has exactly one logged owner
write, to its inserting container the root entry `0`; the root entry
itself is never written. -/
theorem owner_set_once_at_construction_witness :
    (twoPkgSt.ownerSets.map Prod.fst).Nodup ∧
    twoPkgSt.ownerSets
      = twoPkgSt.inserts.map (fun p => (p.1, ownerOfTarget p.2)) ∧
    (entryAt twoPkgSt 1).owner = some 0 ∧
    (entryAt twoPkgSt 0).owner = none :=
  ⟨(owner_set_once_at_construction twoPkgEnv 2 ["p"] true 0 twoPkgSt rfl).1,
   (owner_set_once_at_construction twoPkgEnv 2 ["p"] true 0 twoPkgSt
     rfl).2.1,
   (owner_set_once_at_construction twoPkgEnv 2 ["p"] true 0 twoPkgSt
     rfl).2.2.1 (1, 0) (by decide),
   (owner_set_once_at_construction twoPkgEnv 2 ["p"] true 0 twoPkgSt
     rfl).2.2.2.2⟩

end Lockfile
